import Mathlib

/-!
Shallow embedding of the capsa cache-algorithm simulator
(src/capsa/cache_base.py, src/capsa/caches/{fifo,lru,lfu,arc,two_q,opt}.py,
src/capsa/simulator.py).

Python OrderedDict keys are modelled as a Lean list, front = oldest
(LRU end), back = newest (MRU end).  Python dict assignment with an
existing key keeps the old position, so insertion is odInsert below.
Fallible Python operations (popitem on an empty dict, the assert in
OPTCache) are modelled with Option: none exactly where the Python code
would raise.
-/

namespace Capsa

/-- Insertion into an OrderedDict key list: assignment with a key that is
already present keeps its position, otherwise the key is appended at the
MRU end. -/
def odInsert (l : List Nat) (k : Nat) : List Nat :=
  if k ∈ l then l else l ++ [k]

/-- Pointwise update of a map from numbers to key lists (used for the
defaultdict buckets of LFUCache and OPTCache). -/
def fnUpd (m : Nat → List Nat) (x : Nat) (v : List Nat) : Nat → List Nat :=
  fun y => if y = x then v else m y

/-- Assignment into a Python dict modelled as an association list: an
existing key keeps its position and gets the new value, a new key is
appended. -/
def assocSet (l : List (Nat × Nat)) (k v : Nat) : List (Nat × Nat) :=
  if (l.lookup k).isSome then
    l.map (fun e => if e.1 = k then (k, v) else e)
  else l ++ [(k, v)]

/-! ## FIFOCache (src/capsa/caches/fifo.py)

The Python class keeps a deque and a mirror membership set; the set always
holds exactly the queue's elements, so membership is tested on the queue. -/

structure FIFOState where
  size : Nat
  queue : List Nat
  hits : Nat
  misses : Nat
deriving Repr, DecidableEq

/-- Constructor: Cache.__init__ raises when size ≤ 0. -/
def mkFIFO (c : Int) : Option FIFOState :=
  if c ≤ 0 then none
  else some { size := c.toNat, queue := [], hits := 0, misses := 0 }

/-- FIFOCache.access.  The popleft on an empty deque (possible only for
size 0, which the constructor forbids) is modelled as none. -/
def fifoAccess (s : FIFOState) (k : Nat) : Option (FIFOState × Bool) :=
  if k ∈ s.queue then
    some ({ s with hits := s.hits + 1 }, true)
  else if s.queue.length ≥ s.size then
    match s.queue with
    | [] => none
    | _ :: rest =>
      some ({ s with misses := s.misses + 1, queue := rest ++ [k] }, false)
  else
    some ({ s with misses := s.misses + 1, queue := s.queue ++ [k] }, false)

/-- FIFOCache.get_stats. -/
def fifoGetStats (s : FIFOState) : Nat × Nat := (s.hits, s.misses)

/-! ## LRUCache (src/capsa/caches/lru.py) -/

structure LRUState where
  size : Nat
  data : List Nat
  hits : Nat
  misses : Nat
deriving Repr, DecidableEq

/-- Constructor for LRUCache. -/
def mkLRU (c : Int) : Option LRUState :=
  if c ≤ 0 then none
  else some { size := c.toNat, data := [], hits := 0, misses := 0 }

/-- LRUCache.access: hit moves the key to the MRU end, miss at capacity
evicts the LRU end (popitem last=False) then appends the key. -/
def lruAccess (s : LRUState) (k : Nat) : Option (LRUState × Bool) :=
  if k ∈ s.data then
    some ({ s with data := s.data.erase k ++ [k], hits := s.hits + 1 }, true)
  else if s.data.length ≥ s.size then
    match s.data with
    | [] => none
    | _ :: rest =>
      some ({ s with data := rest ++ [k], misses := s.misses + 1 }, false)
  else
    some ({ s with data := s.data ++ [k], misses := s.misses + 1 }, false)

/-- LRUCache.get_stats. -/
def lruGetStats (s : LRUState) : Nat × Nat := (s.hits, s.misses)

/-! ## TwoQCache (src/capsa/caches/two_q.py) -/

structure TwoQState where
  size : Nat
  sizeIn : Nat
  sizeOut : Nat
  sizeAm : Nat
  A1in : List Nat
  A1out : List Nat
  Am : List Nat
  hits : Nat
  misses : Nat
deriving Repr, DecidableEq

/-- TwoQCache.__init__.  On CPython int(size * 0.5) equals size // 2 for
every size small enough for the float to be exact; it is modelled as
integer halving.  The sub-list sizes are computed over the integers and
are always ≥ 1, so the final toNat is lossless. -/
def mkTwoQ (c : Int) (a1inSize : Option Int) (a1outSize : Option Int) :
    Option TwoQState :=
  if c ≤ 0 then none
  else
    let defaultIn : Int := c / 2
    let sizeIn : Int := max 1 (min (c - 1) (a1inSize.getD defaultIn))
    let sizeOut : Int := max 1 (a1outSize.getD 16)
    let sizeAm : Int := max 1 (c - sizeIn)
    some { size := c.toNat, sizeIn := sizeIn.toNat, sizeOut := sizeOut.toNat,
           sizeAm := sizeAm.toNat, A1in := [], A1out := [], Am := [],
           hits := 0, misses := 0 }

/-- TwoQCache._evict_from_a1in: move the A1in head into the A1out ghost
list, trimming A1out when it exceeds size_out; no-op on an empty A1in. -/
def twoQEvictA1in (s : TwoQState) : TwoQState :=
  match s.A1in with
  | [] => s
  | v :: rest =>
    let s1 := { s with A1in := rest, A1out := odInsert s.A1out v }
    if s1.A1out.length > s1.sizeOut then { s1 with A1out := s1.A1out.tail }
    else s1

/-- TwoQCache._evict_from_am: drop the Am LRU entry if Am is nonempty. -/
def twoQEvictAm (s : TwoQState) : TwoQState :=
  match s.Am with
  | [] => s
  | _ :: rest => { s with Am := rest }

/-- TwoQCache.access. -/
def twoQAccess (s : TwoQState) (k : Nat) : Option (TwoQState × Bool) :=
  if k ∈ s.Am then
    some ({ s with Am := s.Am.erase k ++ [k], hits := s.hits + 1 }, true)
  else if k ∈ s.A1in then
    some ({ s with hits := s.hits + 1 }, true)
  else
    let s1 := { s with misses := s.misses + 1 }
    if k ∈ s1.A1out then
      let s2 := if s1.Am.length ≥ s1.sizeAm then twoQEvictAm s1 else s1
      some ({ s2 with A1out := s2.A1out.erase k, Am := odInsert s2.Am k },
            false)
    else
      let s2 := if s1.A1in.length ≥ s1.sizeIn then twoQEvictA1in s1 else s1
      some ({ s2 with A1in := odInsert s2.A1in k }, false)

/-- TwoQCache.get_stats (hits, misses, a1in, a1out, am). -/
def twoQGetStats (s : TwoQState) : Nat × Nat × Nat × Nat × Nat :=
  (s.hits, s.misses, s.A1in.length, s.A1out.length, s.Am.length)

/-! ## LFUCache (src/capsa/caches/lfu.py)

key_freq is the Python dict from key to frequency, in insertion order;
freq_keys is the defaultdict from a frequency to its promotion-ordered
bucket of keys (modelled as a total map defaulting to the empty list, so
the explicit del of an emptied bucket is a no-op). -/

structure LFUState where
  size : Nat
  keyFreq : List (Nat × Nat)
  freqKeys : Nat → List Nat
  minFreq : Nat
  hits : Nat
  misses : Nat

/-- Constructor for LFUCache. -/
def mkLFU (c : Int) : Option LFUState :=
  if c ≤ 0 then none
  else some { size := c.toNat, keyFreq := [], freqKeys := fun _ => [],
              minFreq := 0, hits := 0, misses := 0 }

/-- LFUCache._bump, given the key's current frequency f: remove the key
from bucket f, advance min_freq when that bucket emptied and was the
minimum, record the new frequency and append the key to bucket f+1. -/
def lfuBump (s : LFUState) (k : Nat) (f : Nat) : LFUState :=
  let b := (s.freqKeys f).erase k
  let fk := fnUpd s.freqKeys f b
  let mf := if b = [] ∧ s.minFreq = f then s.minFreq + 1 else s.minFreq
  { s with keyFreq := assocSet s.keyFreq k (f + 1),
           freqKeys := fnUpd fk (f + 1) (odInsert (fk (f + 1)) k),
           minFreq := mf }

/-- LFUCache.access.  On a miss at capacity the victim is popped from the
front of bucket[min_freq]; popitem on an empty bucket (impossible on
reachable states) is modelled as none. -/
def lfuAccess (s : LFUState) (k : Nat) : Option (LFUState × Bool) :=
  match s.keyFreq.lookup k with
  | some f => some (lfuBump { s with hits := s.hits + 1 } k f, true)
  | none =>
    let s1 := { s with misses := s.misses + 1 }
    if s1.keyFreq.length ≥ s1.size then
      match s1.freqKeys s1.minFreq with
      | [] => none
      | v :: rest =>
        let s2 := { s1 with
          keyFreq := s1.keyFreq.eraseP (fun e => e.1 = v),
          freqKeys := fnUpd s1.freqKeys s1.minFreq rest }
        some ({ s2 with
          keyFreq := s2.keyFreq ++ [(k, 1)],
          freqKeys := fnUpd s2.freqKeys 1 (odInsert (s2.freqKeys 1) k),
          minFreq := 1 }, false)
    else
      some ({ s1 with
        keyFreq := s1.keyFreq ++ [(k, 1)],
        freqKeys := fnUpd s1.freqKeys 1 (odInsert (s1.freqKeys 1) k),
        minFreq := 1 }, false)

/-- LFUCache.get_stats. -/
def lfuGetStats (s : LFUState) : Nat × Nat := (s.hits, s.misses)

/-! ## ARCCache (src/capsa/caches/arc.py) -/

structure ARCState where
  size : Nat
  T1 : List Nat
  T2 : List Nat
  B1 : List Nat
  B2 : List Nat
  p : Int
  hits : Nat
  misses : Nat
deriving Repr, DecidableEq

/-- Constructor for ARCCache. -/
def mkARC (c : Int) : Option ARCState :=
  if c ≤ 0 then none
  else some { size := c.toNat, T1 := [], T2 := [], B1 := [], B2 := [],
              p := 0, hits := 0, misses := 0 }

/-- ARCCache._replace(page_id): page_id is None on the bootstrap path, in
which case the page_id-in-B2 test is vacuously false. -/
def arcReplace (pageId : Option Nat) (s : ARCState) : ARCState :=
  let inB2 : Bool := match pageId with
    | none => false
    | some k => decide (k ∈ s.B2)
  if s.T1 ≠ [] ∧ ((s.T1.length : Int) > s.p ∨
      (inB2 = true ∧ (s.T1.length : Int) = s.p)) then
    match s.T1 with
    | [] => s
    | old :: rest =>
      let s1 := { s with T1 := rest, B1 := odInsert s.B1 old }
      if s1.B1.length > s1.size then { s1 with B1 := s1.B1.tail } else s1
  else
    match s.T2 with
    | [] => s
    | old :: rest =>
      let s1 := { s with T2 := rest, B2 := odInsert s.B2 old }
      if s1.B2.length > s1.size then { s1 with B2 := s1.B2.tail } else s1

/-- ARCCache._adapt_p_on_b1_hit: grow p by max(1, |B2| // |B1|), capped at
the capacity. -/
def arcAdaptB1 (s : ARCState) : ARCState :=
  let delta : Int :=
    if s.B1 = [] then 1 else max 1 ((s.B2.length : Int) / (s.B1.length : Int))
  { s with p := min (s.size : Int) (s.p + delta) }

/-- ARCCache._adapt_p_on_b2_hit: shrink p by max(1, |B1| // |B2|), floored
at 0. -/
def arcAdaptB2 (s : ARCState) : ARCState :=
  let delta : Int :=
    if s.B2 = [] then 1 else max 1 ((s.B1.length : Int) / (s.B2.length : Int))
  { s with p := max 0 (s.p - delta) }

/-- ARCCache._ensure_space_for_miss.  The two popitem calls on possibly
empty lists are modelled as none; arithmetic makes the first unreachable
and the second unreachable whenever size ≥ 1. -/
def arcEnsureSpace (s : ARCState) : Option ARCState :=
  let total := s.T1.length + s.B1.length
  if total = s.size then
    if s.T1.length < s.size then
      match s.B1 with
      | [] => none
      | _ :: rest => some (arcReplace none { s with B1 := rest })
    else
      match s.T1 with
      | [] => none
      | _ :: rest => some { s with T1 := rest }
  else
    let grand := total + s.T2.length + s.B2.length
    if grand ≥ s.size then
      let s1 := if grand = 2 * s.size ∧ s.B2 ≠ [] then
                  { s with B2 := s.B2.tail } else s
      some (arcReplace none s1)
    else some s

/-- ARCCache.access. -/
def arcAccess (s : ARCState) (k : Nat) : Option (ARCState × Bool) :=
  if k ∈ s.T1 then
    some ({ s with T1 := s.T1.erase k, T2 := odInsert s.T2 k,
                   hits := s.hits + 1 }, true)
  else if k ∈ s.T2 then
    some ({ s with T2 := odInsert (s.T2.erase k) k,
                   hits := s.hits + 1 }, true)
  else
    let s1 := { s with misses := s.misses + 1 }
    if k ∈ s1.B1 then
      let s2 := arcReplace (some k) (arcAdaptB1 s1)
      some ({ s2 with B1 := s2.B1.erase k, T2 := odInsert s2.T2 k }, false)
    else if k ∈ s1.B2 then
      let s2 := arcReplace (some k) (arcAdaptB2 s1)
      some ({ s2 with B2 := s2.B2.erase k, T2 := odInsert s2.T2 k }, false)
    else
      match arcEnsureSpace s1 with
      | none => none
      | some s2 => some ({ s2 with T1 := odInsert s2.T1 k }, false)

/-- ARCCache.get_stats (hits, misses, p). -/
def arcGetStats (s : ARCState) : Nat × Nat × Int := (s.hits, s.misses, s.p)

/-! ## OPTCache (src/capsa/caches/opt.py)

The Python cache is a set of ints; it is modelled as a list in insertion
order, an abstraction of the unspecified set iteration order (see
spec.md Open Questions).  future_positions.get returns None for an
absent key, which behaves like the empty deque. -/

structure OPTState where
  size : Nat
  tracePreloaded : Bool
  futurePositions : Nat → List Nat
  cache : List Nat
  currentStep : Nat
  hits : Nat
  misses : Nat

/-- OPTCache._preprocess_trace: per key, the queue of its occurrence
indices in the trace, in order. -/
def optPreprocess (trace : List Nat) : Nat → List Nat :=
  fun k => (trace.enum.filter (fun e => e.2 = k)).map (fun e => e.1)

/-- OPTCache.__init__ with an optional constructor trace. -/
def mkOPT (c : Int) (trace : Option (List Nat)) : Option OPTState :=
  if c ≤ 0 then none
  else some { size := c.toNat, tracePreloaded := trace.isSome,
              futurePositions :=
                (match trace with
                 | some t => optPreprocess t
                 | none => fun _ => []),
              cache := [], currentStep := 0, hits := 0, misses := 0 }

/-- OPTCache.prime: rebuild future_positions (trace_preloaded is not
updated by the source). -/
def optPrime (s : OPTState) (trace : List Nat) : OPTState :=
  { s with futurePositions := optPreprocess trace }

/-- OPTCache._drop_current_reference. -/
def optDropRef (s : OPTState) (k : Nat) : OPTState :=
  match s.futurePositions k with
  | [] => s
  | p :: rest =>
    if p = s.currentStep then
      { s with futurePositions := fnUpd s.futurePositions k rest }
    else s

/-- Loop body of OPTCache._select_victim: scan the cache in iteration
order, returning the first page with no future occurrence immediately,
otherwise the first page attaining the strictly largest next-occurrence
index. -/
def optSelectAux (fp : Nat → List Nat) :
    List Nat → Int → Option Nat → Option Nat
  | [], _, victim => victim
  | page :: rest, far, victim =>
    match fp page with
    | [] => some page
    | q :: _ =>
      if (q : Int) > far then optSelectAux fp rest (q : Int) (some page)
      else optSelectAux fp rest far victim

/-- OPTCache._select_victim; none models the assert firing on an empty
cache. -/
def optSelectVictim (s : OPTState) : Option Nat :=
  optSelectAux s.futurePositions s.cache (-1) none

/-- OPTCache.access. -/
def optAccess (s : OPTState) (k : Nat) : Option (OPTState × Bool) :=
  let s1 := optDropRef s k
  if k ∈ s1.cache then
    some ({ s1 with hits := s1.hits + 1,
                    currentStep := s1.currentStep + 1 }, true)
  else
    let s2 := { s1 with misses := s1.misses + 1 }
    if s2.cache.length ≥ s2.size then
      match optSelectVictim s2 with
      | none => none
      | some v =>
        some ({ s2 with cache := s2.cache.erase v ++ [k],
                        currentStep := s2.currentStep + 1 }, false)
    else
      some ({ s2 with cache := s2.cache ++ [k],
                      currentStep := s2.currentStep + 1 }, false)

/-- OPTCache.get_stats. -/
def optGetStats (s : OPTState) : Nat × Nat := (s.hits, s.misses)

/-! ## Generic replay (src/capsa/simulator.py)

runAcc threads a policy state through a trace; simRun additionally
accumulates the simulator's own hit and miss counters exactly as
Simulator.run does. -/

/-- Replay a trace against a policy, keeping only the final state. -/
def runAcc {σ : Type} (access : σ → Nat → Option (σ × Bool)) :
    σ → List Nat → Option σ
  | s, [] => some s
  | s, k :: rest =>
    match access s k with
    | none => none
    | some (s', _) => runAcc access s' rest

/-- Simulator.run inner loop: classify each access and accumulate the
simulator's hit and miss counters. -/
def simRun {σ : Type} (access : σ → Nat → Option (σ × Bool)) :
    σ → List Nat → Nat → Nat → Option (Nat × Nat × σ)
  | s, [], h, m => some (h, m, s)
  | s, k :: rest, h, m =>
    match access s k with
    | none => none
    | some (s', true) => simRun access s' rest (h + 1) m
    | some (s', false) => simRun access s' rest h (m + 1)

/-- SimulationResult without the timing field (elapsed time is
informational only and not modelled). -/
structure SimulationResult where
  cacheSize : Nat
  totalRequests : Nat
  hits : Nat
  misses : Nat
deriving Repr, DecidableEq

/-- Simulator.run: replay the trace and package the counters. -/
def simulatorRun {σ : Type} (access : σ → Nat → Option (σ × Bool))
    (cacheSize : Nat) (s : σ) (trace : List Nat) :
    Option (SimulationResult × σ) :=
  match simRun access s trace 0 0 with
  | none => none
  | some (h, m, s') =>
    some ({ cacheSize := cacheSize, totalRequests := trace.length,
            hits := h, misses := m }, s')

/-! ## Specification predicates -/

/-- A policy access increments exactly one of the internal hit and miss
counters, the one matching its boolean result. -/
def StepCounts {σ : Type} (access : σ → Nat → Option (σ × Bool))
    (hitsF missesF : σ → Nat) : Prop :=
  ∀ s k s' b, access s k = some (s', b) →
    hitsF s' = hitsF s + (if b then 1 else 0) ∧
    missesF s' = missesF s + (if b then 0 else 1)

/-- Under invariant I every access succeeds and preserves I. -/
def StepSafe {σ : Type} (access : σ → Nat → Option (σ × Bool))
    (I : σ → Prop) : Prop :=
  ∀ s, I s → ∀ k,
    (∃ s' b, access s k = some (s', b)) ∧
    ∀ s' b, access s k = some (s', b) → I s'

/-- Internal consistency of an LFU state: frequencies are positive and at
least min_freq, the buckets partition the resident keys by frequency
without duplicates, and the min_freq bucket is nonempty whenever the
cache is. -/
def LFUInv (s : LFUState) : Prop :=
  (∀ k f, s.keyFreq.lookup k = some f →
    1 ≤ f ∧ s.minFreq ≤ f ∧ k ∈ s.freqKeys f) ∧
  (∀ f k, k ∈ s.freqKeys f → s.keyFreq.lookup k = some f) ∧
  (∀ f, (s.freqKeys f).Nodup) ∧
  (s.keyFreq.map Prod.fst).Nodup ∧
  (s.keyFreq ≠ [] → s.freqKeys s.minFreq ≠ [])

/-- The hot FIFO list A1in and the main list Am never share a key. -/
def TwoQDisj (s : TwoQState) : Prop :=
  ∀ x, x ∈ s.A1in → x ∉ s.Am

end Capsa

namespace Capsa

/-!
## Claim C1 (capacity invariant) — failing input

TwoQCache violates the capacity invariant at capacity 1: the constructor
computes size_in = max(1, min(0, 0)) = 1 and size_am = max(1, 1 - 1) = 1,
so A1in and Am may each hold one resident key, 2 > capacity.
-/

/-- C1: code bug.  A TwoQCache of capacity 1 replayed on the trace
[1, 2, 1] ends with A1in = [2] and Am = [1], i.e. 2 resident (non-ghost)
keys, exceeding the capacity 1, contrary to the capacity invariant the
spec states for all policies. -/
theorem twoQ_capacity_exceeded_at_one :
    ((mkTwoQ 1 none none).bind (fun s0 => runAcc twoQAccess s0 [1, 2, 1])).map
        (fun s => (s.A1in, s.Am, s.A1in.length + s.Am.length, s.size)) =
      some ([2], [1], 2, 1) ∧ 2 > 1 := by
  exact ⟨rfl, by decide⟩

/-!
## Claim C2 (OPT optimality) — failing input

At capacity 1 the TwoQCache holds up to 2 resident keys (the C1 bug), so
it beats Belady's OPT, which honours the capacity: on the alternating
trace [1, 2, 1, 2, 1, 2] OPT scores 0 hits and 2Q scores 3.
-/

/-- C2: code bug.  OPT primed with [1, 2, 1, 2, 1, 2] at capacity 1 gets
0 hits, while TwoQCache at the same capacity gets 3 hits on the same
trace, contradicting the claimed OPT ≥ 2Q; the cause is 2Q exceeding its
declared capacity at capacity 1. -/
theorem opt_hits_below_twoQ_hits :
    ((mkOPT 1 (some [1, 2, 1, 2, 1, 2])).bind
        (fun s0 => runAcc optAccess s0 [1, 2, 1, 2, 1, 2])).map OPTState.hits =
      some 0 ∧
    ((mkTwoQ 1 none none).bind
        (fun s0 => runAcc twoQAccess s0 [1, 2, 1, 2, 1, 2])).map TwoQState.hits =
      some 3 ∧
    ¬ (0 ≥ 3) := by
  exact ⟨rfl, rfl, by decide⟩

/-!
## Claim C3 (NotPrimed on unprimed OPT access) — failing input

OPTCache.access never raises: the trace_preloaded flag set by the
constructor is never read, and an unprimed access is processed as an
ordinary miss (all keys then have no future occurrences).
-/

/-- C3: code bug.  Accessing an OPTCache of capacity 1 constructed with
no trace and never primed returns an ordinary miss (key cached, miss
counter incremented) instead of failing with NotPrimed. -/
theorem opt_unprimed_access_is_ordinary_miss :
    ∃ s0, mkOPT 1 none = some s0 ∧ s0.tracePreloaded = false ∧
      (optAccess s0 5).map (fun r => (r.2, r.1.cache, r.1.misses)) =
        some (false, [5], 1) :=
  ⟨_, rfl, rfl, rfl⟩

/-!
## Claim C4 (ARC space-ensuring threshold) — counterexample

The code runs the replace step as soon as |T1|+|T2|+|B1|+|B2| ≥ capacity
(matching the ARC paper's Figure 4), not only at ≥ 2×capacity as the
claim states, and it trims B2 only when the total equals exactly
2×capacity.
-/

/-- C4: counterexample to the claim as stated.  With capacity 2, after
the trace [1, 2, 1] the state has T1 = [2], T2 = [1], B1 = B2 = [], so
for the brand-new key 3 we have |T1|+|B1| = 1 < 2 and a combined size
of 2 < 2×2; the claim then says no eviction happens, yet the access
evicts key 2 from T1 into the ghost list B1. -/
theorem arc_evicts_below_double_capacity :
    ∃ s, (mkARC 2).bind (fun s0 => runAcc arcAccess s0 [1, 2, 1]) = some s ∧
      (3 ∉ s.T1 ∧ 3 ∉ s.T2 ∧ 3 ∉ s.B1 ∧ 3 ∉ s.B2) ∧
      s.T1.length + s.B1.length < s.size ∧
      s.T1.length + s.T2.length + s.B1.length + s.B2.length < 2 * s.size ∧
      s.B1 = [] ∧ 2 ∈ s.T1 ∧
      (arcAccess s 3).map (fun r => (r.1.B1, r.1.T1)) = some ([2], [3]) :=
  ⟨_, rfl, by decide, by decide, by decide, by decide, by decide, rfl⟩

/-- C4 amended: on a miss for a key absent from T1, T2, B1 and B2 with
|T1|+|B1| below the capacity, the replace step runs as soon as the
combined size of T1, T2, B1 and B2 is at least the capacity (not
2×capacity); B2 is trimmed first exactly when that combined size equals
2×capacity and B2 is nonempty; below the capacity nothing is evicted and
the key is simply inserted at the T1 MRU end. -/
theorem arc_space_ensuring_spec (s : ARCState) (k : Nat)
    (hk1 : k ∉ s.T1) (hk2 : k ∉ s.T2) (hk3 : k ∉ s.B1) (hk4 : k ∉ s.B2)
    (h : s.T1.length + s.B1.length < s.size) :
    (s.T1.length + s.T2.length + s.B1.length + s.B2.length < s.size →
      arcAccess s k =
        some ({ s with misses := s.misses + 1, T1 := odInsert s.T1 k },
              false)) ∧
    (s.size ≤ s.T1.length + s.T2.length + s.B1.length + s.B2.length →
      s.T1.length + s.T2.length + s.B1.length + s.B2.length < 2 * s.size →
      arcAccess s k =
        some (let s3 := arcReplace none { s with misses := s.misses + 1 }
              ({ s3 with T1 := odInsert s3.T1 k }, false))) ∧
    (s.T1.length + s.T2.length + s.B1.length + s.B2.length = 2 * s.size →
      s.B2 ≠ [] →
      arcAccess s k =
        some (let s3 := arcReplace none
                { s with misses := s.misses + 1, B2 := s.B2.tail }
              ({ s3 with T1 := odInsert s3.T1 k }, false))) := by
  have hne : ¬ (s.T1.length + s.B1.length = s.size) := by omega
  refine ⟨fun h1 => ?_, fun h1 h2 => ?_, fun h1 h2 => ?_⟩ <;>
    simp only [arcAccess, arcEnsureSpace, if_neg hk1, if_neg hk2,
      if_neg hk3, if_neg hk4, if_neg hne]
  · rw [if_neg (by omega : ¬ (s.T1.length + s.B1.length + s.T2.length +
        s.B2.length ≥ s.size))]
  · rw [if_pos (by omega : s.T1.length + s.B1.length + s.T2.length +
        s.B2.length ≥ s.size),
      if_neg (fun hc => absurd hc.1 (by omega))]
  · rw [if_pos (by omega : s.T1.length + s.B1.length + s.T2.length +
        s.B2.length ≥ s.size),
      if_pos ⟨by omega, h2⟩]

/-- Witness for arc_space_ensuring_spec at the concrete state of the C4
counterexample trace: capacity 2, T1 = [2], T2 = [1], empty ghosts,
key 3; the combined size 2 is at least the capacity and below
2×capacity, so the replace step runs without trimming B2. -/
theorem arc_space_ensuring_spec_witness :
    ∃ s : ARCState,
      s = { size := 2, T1 := [2], T2 := [1], B1 := [], B2 := [], p := 0,
            hits := 1, misses := 2 } ∧
      (2 ≤ s.T1.length + s.T2.length + s.B1.length + s.B2.length ∧
        s.T1.length + s.T2.length + s.B1.length + s.B2.length < 2 * 2) ∧
      arcAccess s 3 =
        some (let s3 := arcReplace none { s with misses := s.misses + 1 }
              ({ s3 with T1 := odInsert s3.T1 3 }, false)) := by
  refine ⟨_, rfl, by decide, ?_⟩
  exact (arc_space_ensuring_spec _ 3 (by decide) (by decide) (by decide)
    (by decide) (by decide)).2.1 (by decide) (by decide)

/-!
## Claim C5 (ARC adaptive parameter bound)
-/

/-- The replace step never touches p, size or the counters. -/
theorem arcReplace_preserves (pageId : Option Nat) (s : ARCState) :
    (arcReplace pageId s).p = s.p ∧ (arcReplace pageId s).size = s.size ∧
    (arcReplace pageId s).hits = s.hits ∧
    (arcReplace pageId s).misses = s.misses := by
  unfold arcReplace
  dsimp only
  split
  · split
    · exact ⟨rfl, rfl, rfl, rfl⟩
    · split <;> exact ⟨rfl, rfl, rfl, rfl⟩
  · split
    · exact ⟨rfl, rfl, rfl, rfl⟩
    · split <;> exact ⟨rfl, rfl, rfl, rfl⟩

/-- The space-ensuring step never touches p, size or the counters. -/
theorem arcEnsureSpace_preserves (s s2 : ARCState)
    (h : arcEnsureSpace s = some s2) :
    s2.p = s.p ∧ s2.size = s.size ∧ s2.hits = s.hits ∧
    s2.misses = s.misses := by
  unfold arcEnsureSpace at h
  dsimp only at h
  split at h
  · split at h
    · split at h
      · exact absurd h (by simp)
      · cases h
        simpa using arcReplace_preserves none _
    · split at h
      · exact absurd h (by simp)
      · cases h
        exact ⟨rfl, rfl, rfl, rfl⟩
  · split at h
    · cases h
      obtain ⟨h1, h2, h3, h4⟩ := arcReplace_preserves none
        (if s.T1.length + s.B1.length + s.T2.length + s.B2.length =
              2 * s.size ∧ s.B2 ≠ []
         then { s with B2 := s.B2.tail } else s)
      refine ⟨h1.trans ?_, h2.trans ?_, h3.trans ?_, h4.trans ?_⟩ <;>
        split <;> rfl
    · cases h
      exact ⟨rfl, rfl, rfl, rfl⟩

/-- Growing p on a B1 ghost hit keeps it within [0, capacity]. -/
theorem arcAdaptB1_bound (s : ARCState) (h0 : 0 ≤ s.p) :
    0 ≤ (arcAdaptB1 s).p ∧ (arcAdaptB1 s).p ≤ (s.size : Int) := by
  unfold arcAdaptB1
  have hd : (1 : Int) ≤ (if s.B1 = [] then 1
      else max 1 ((s.B2.length : Int) / (s.B1.length : Int))) := by
    split
    · exact le_refl 1
    · exact le_max_left _ _
  constructor
  · exact le_min (Int.ofNat_nonneg _) (by omega)
  · exact min_le_left _ _

/-- Shrinking p on a B2 ghost hit keeps it within [0, capacity]. -/
theorem arcAdaptB2_bound (s : ARCState) (h1 : s.p ≤ (s.size : Int)) :
    0 ≤ (arcAdaptB2 s).p ∧ (arcAdaptB2 s).p ≤ (s.size : Int) := by
  unfold arcAdaptB2
  refine ⟨le_max_left _ _, max_le (Int.ofNat_nonneg _) (by omega)⟩

/-- One ARC access preserves the capacity and keeps p within
[0, capacity]. -/
theorem arcAccess_p_step (s : ARCState) (k : Nat) (s' : ARCState) (b : Bool)
    (hacc : arcAccess s k = some (s', b)) :
    s'.size = s.size ∧
    (0 ≤ s.p ∧ s.p ≤ (s.size : Int) → 0 ≤ s'.p ∧ s'.p ≤ (s'.size : Int)) := by
  unfold arcAccess at hacc
  dsimp only at hacc
  split at hacc
  · cases hacc
    exact ⟨rfl, fun hp => hp⟩
  · split at hacc
    · cases hacc
      exact ⟨rfl, fun hp => hp⟩
    · split at hacc
      · cases hacc
        obtain ⟨hp, hs, -, -⟩ :=
          arcReplace_preserves (some k) (arcAdaptB1 { s with misses := s.misses + 1 })
        refine ⟨hs, fun hpair => ?_⟩
        have hb1 := arcAdaptB1_bound { s with misses := s.misses + 1 } hpair.1
        constructor
        · simpa [hp] using hb1.1
        · simpa [hp, hs] using hb1.2
      · split at hacc
        · cases hacc
          obtain ⟨hp, hs, -, -⟩ :=
            arcReplace_preserves (some k) (arcAdaptB2 { s with misses := s.misses + 1 })
          refine ⟨hs, fun hpair => ?_⟩
          have hb2 := arcAdaptB2_bound { s with misses := s.misses + 1 } hpair.2
          constructor
          · simpa [hp] using hb2.1
          · simpa [hp, hs] using hb2.2
        · split at hacc
          · exact absurd hacc (by simp)
          · next s2 heq =>
            cases hacc
            obtain ⟨hp, hs, -, -⟩ := arcEnsureSpace_preserves _ _ heq
            exact ⟨hs, fun hb => ⟨by simpa [hp] using hb.1,
              by simpa [hp, hs] using hb.2⟩⟩

/-- Replaying any trace from a state with p in [0, capacity] keeps p in
[0, capacity] and preserves the capacity. -/
theorem arcRun_p_bound (trace : List Nat) (s s' : ARCState)
    (h0 : 0 ≤ s.p ∧ s.p ≤ (s.size : Int))
    (h : runAcc arcAccess s trace = some s') :
    (0 ≤ s'.p ∧ s'.p ≤ (s'.size : Int)) ∧ s'.size = s.size := by
  induction trace generalizing s with
  | nil =>
    cases h
    exact ⟨h0, rfl⟩
  | cons k rest ih =>
    unfold runAcc at h
    split at h
    · exact absurd h (by simp)
    · next s1 b heq =>
      obtain ⟨hs, hstep⟩ := arcAccess_p_step s k s1 b heq
      obtain ⟨hb, hsz⟩ := ih s1 (hstep h0) h
      exact ⟨hb, hsz.trans hs⟩

/-- C5: after any sequence of accesses on an ARCCache of positive
capacity c, the adaptive parameter p satisfies 0 ≤ p ≤ c (it starts at 0
and every adjustment is clamped into that range). -/
theorem arc_p_within_capacity (c : Int) (trace : List Nat)
    (s0 s' : ARCState) (hmk : mkARC c = some s0)
    (hrun : runAcc arcAccess s0 trace = some s') :
    0 ≤ s'.p ∧ s'.p ≤ c := by
  unfold mkARC at hmk
  split at hmk
  · exact absurd hmk (by simp)
  · next hc =>
    cases hmk
    have hcn : ((c.toNat : Nat) : Int) = c := Int.toNat_of_nonneg (by omega)
    obtain ⟨⟨h1, h2⟩, hsz⟩ := arcRun_p_bound trace _ s'
      ⟨le_refl 0, by simp⟩ hrun
    refine ⟨h1, ?_⟩
    rw [hsz] at h2
    simpa [hcn] using h2

/-- Witness for arc_p_within_capacity: capacity 2 on the trace
[1, 2, 1, 3] keeps p within [0, 2]. -/
theorem arc_p_within_capacity_witness :
    ∃ s0 s' : ARCState, mkARC 2 = some s0 ∧
      runAcc arcAccess s0 [1, 2, 1, 3] = some s' ∧ 0 ≤ s'.p ∧ s'.p ≤ 2 :=
  ⟨_, _, rfl, rfl, arc_p_within_capacity 2 [1, 2, 1, 3] _ _ rfl rfl⟩

/-!
## Shared facts about the OrderedDict model
-/

/-- Membership after an OrderedDict insertion. -/
theorem mem_odInsert (x k : Nat) (l : List Nat) :
    x ∈ odInsert l k ↔ x ∈ l ∨ x = k := by
  unfold odInsert
  split
  · next hk =>
    constructor
    · exact fun h => Or.inl h
    · rintro (h | rfl)
      · exact h
      · exact hk
  · simp

/-- An OrderedDict insertion always contains the inserted key. -/
theorem self_mem_odInsert (k : Nat) (l : List Nat) : k ∈ odInsert l k := by
  rw [mem_odInsert]
  exact Or.inr rfl

/-- The result of an OrderedDict insertion is never empty. -/
theorem odInsert_ne_nil (k : Nat) (l : List Nat) : odInsert l k ≠ [] :=
  fun h => by simpa [h] using self_mem_odInsert k l

/-- An OrderedDict insertion preserves key distinctness. -/
theorem nodup_odInsert (k : Nat) (l : List Nat) (h : l.Nodup) :
    (odInsert l k).Nodup := by
  unfold odInsert
  split
  · exact h
  · next hk =>
    rw [List.nodup_append]
    exact ⟨h, List.nodup_singleton k,
      fun a ha hmem => hk ((List.mem_singleton.mp hmem) ▸ ha)⟩

/-!
## Claim C7 (2Q promotion rule)
-/

/-- The A1in eviction helper only shrinks A1in. -/
theorem twoQEvictA1in_A1in_sub (s : TwoQState) (x : Nat)
    (hx : x ∈ (twoQEvictA1in s).A1in) : x ∈ s.A1in := by
  unfold twoQEvictA1in at hx
  split at hx
  · exact hx
  · next v rest heq =>
    rw [heq]
    dsimp only at hx
    split at hx <;> exact List.mem_cons_of_mem v hx

/-- The A1in eviction helper never touches Am. -/
theorem twoQEvictA1in_Am (s : TwoQState) :
    (twoQEvictA1in s).Am = s.Am := by
  unfold twoQEvictA1in
  split
  · rfl
  · dsimp only
    split <;> rfl

/-- The Am eviction helper only shrinks Am. -/
theorem twoQEvictAm_Am_sub (s : TwoQState) (x : Nat)
    (hx : x ∈ (twoQEvictAm s).Am) : x ∈ s.Am := by
  unfold twoQEvictAm at hx
  split at hx
  · exact hx
  · next v rest heq =>
    rw [heq]
    exact List.mem_cons_of_mem v hx

/-- The Am eviction helper never touches A1in. -/
theorem twoQEvictAm_A1in (s : TwoQState) :
    (twoQEvictAm s).A1in = s.A1in := by
  unfold twoQEvictAm
  split <;> rfl

/-- A 2Q access preserves disjointness of A1in and Am. -/
theorem twoQAccess_disj (s : TwoQState) (k : Nat) (s' : TwoQState) (b : Bool)
    (h : twoQAccess s k = some (s', b)) (hd : TwoQDisj s) : TwoQDisj s' := by
  unfold twoQAccess at h
  dsimp only at h
  by_cases hAm : k ∈ s.Am
  · rw [if_pos hAm] at h
    cases h
    intro x hx hmem
    rcases List.mem_append.mp hmem with hx2 | hx2
    · exact hd x hx (List.mem_of_mem_erase hx2)
    · have hxk : x = k := List.mem_singleton.mp hx2
      exact hd x hx (hxk ▸ hAm)
  · rw [if_neg hAm] at h
    by_cases hIn : k ∈ s.A1in
    · rw [if_pos hIn] at h
      cases h
      exact hd
    · rw [if_neg hIn] at h
      by_cases hOut : k ∈ s.A1out
      · rw [if_pos hOut] at h
        by_cases hFull : s.Am.length ≥ s.sizeAm
        · rw [if_pos hFull] at h
          cases h
          intro x hx hmem
          have hx1 : x ∈ s.A1in := by
            rw [twoQEvictAm_A1in] at hx
            exact hx
          rcases (mem_odInsert x k _).mp hmem with hx2 | rfl
          · exact hd x hx1 (twoQEvictAm_Am_sub { s with misses := s.misses + 1 } x hx2)
          · exact hIn hx1
        · rw [if_neg hFull] at h
          cases h
          intro x hx hmem
          rcases (mem_odInsert x k _).mp hmem with hx2 | rfl
          · exact hd x hx hx2
          · exact hIn hx
      · rw [if_neg hOut] at h
        by_cases hFull : s.A1in.length ≥ s.sizeIn
        · rw [if_pos hFull] at h
          cases h
          intro x hx hmem
          rw [twoQEvictA1in_Am] at hmem
          rcases (mem_odInsert x k _).mp hx with hx2 | rfl
          · exact hd x (twoQEvictA1in_A1in_sub { s with misses := s.misses + 1 } x hx2) hmem
          · exact hAm hmem
        · rw [if_neg hFull] at h
          cases h
          intro x hx hmem
          rcases (mem_odInsert x k _).mp hx with hx2 | rfl
          · exact hd x hx2 hmem
          · exact hAm hmem

/-- Replaying any trace preserves disjointness of A1in and Am. -/
theorem twoQRun_disj (trace : List Nat) (s s' : TwoQState)
    (h0 : TwoQDisj s) (h : runAcc twoQAccess s trace = some s') :
    TwoQDisj s' := by
  induction trace generalizing s with
  | nil =>
    cases h
    exact h0
  | cons k rest ih =>
    unfold runAcc at h
    split at h
    · exact absurd h (by simp)
    · next s1 b heq => exact ih s1 (twoQAccess_disj s k s1 b heq h0) h

/-- C7: on any reachable TwoQCache state, a key can enter Am only through
a miss that finds it in the A1out ghost list, and a hit on a key resident
in A1in changes only the hit counter — no list membership or order. -/
theorem twoQ_am_entry_only_from_ghost (c : Int) (a1i a1o : Option Int)
    (trace : List Nat) (s0 s : TwoQState) (k : Nat)
    (hmk : mkTwoQ c a1i a1o = some s0)
    (hrun : runAcc twoQAccess s0 trace = some s) :
    (∀ s' b, twoQAccess s k = some (s', b) →
      ∀ x, x ∈ s'.Am →
        x ∈ s.Am ∨
        (x = k ∧ b = false ∧ k ∈ s.A1out ∧ k ∉ s.Am ∧ k ∉ s.A1in)) ∧
    (k ∈ s.A1in →
      twoQAccess s k = some ({ s with hits := s.hits + 1 }, true)) := by
  have hd : TwoQDisj s := by
    refine twoQRun_disj trace s0 s ?_ hrun
    unfold mkTwoQ at hmk
    split at hmk
    · exact absurd hmk (by simp)
    · cases hmk
      intro x hx
      simp at hx
  constructor
  · intro s' b h x hx
    unfold twoQAccess at h
    dsimp only at h
    by_cases hAm : k ∈ s.Am
    · rw [if_pos hAm] at h
      cases h
      rcases List.mem_append.mp hx with hx2 | hx2
      · exact Or.inl (List.mem_of_mem_erase hx2)
      · have hxk : x = k := List.mem_singleton.mp hx2
        exact Or.inl (hxk ▸ hAm)
    · rw [if_neg hAm] at h
      by_cases hIn : k ∈ s.A1in
      · rw [if_pos hIn] at h
        cases h
        exact Or.inl hx
      · rw [if_neg hIn] at h
        by_cases hOut : k ∈ s.A1out
        · rw [if_pos hOut] at h
          by_cases hFull : s.Am.length ≥ s.sizeAm
          · rw [if_pos hFull] at h
            cases h
            rcases (mem_odInsert x k _).mp hx with hx2 | rfl
            · exact Or.inl (twoQEvictAm_Am_sub { s with misses := s.misses + 1 } x hx2)
            · exact Or.inr ⟨rfl, rfl, hOut, hAm, hIn⟩
          · rw [if_neg hFull] at h
            cases h
            rcases (mem_odInsert x k _).mp hx with hx2 | rfl
            · exact Or.inl hx2
            · exact Or.inr ⟨rfl, rfl, hOut, hAm, hIn⟩
        · rw [if_neg hOut] at h
          by_cases hFull : s.A1in.length ≥ s.sizeIn
          · rw [if_pos hFull] at h
            cases h
            rw [twoQEvictA1in_Am] at hx
            exact Or.inl hx
          · rw [if_neg hFull] at h
            cases h
            exact Or.inl hx
  · intro hin
    have hAm : k ∉ s.Am := hd k hin
    unfold twoQAccess
    rw [if_neg hAm, if_pos hin]

/-- Witness for twoQ_am_entry_only_from_ghost: capacity 2 and trace
[1, 2, 1] reach a state with key 1 promoted into Am via its A1out ghost
hit. -/
theorem twoQ_am_entry_only_from_ghost_witness :
    ∃ s0 s : TwoQState, mkTwoQ 2 none none = some s0 ∧
      runAcc twoQAccess s0 [1, 2, 1] = some s ∧
      ((∀ s' b, twoQAccess s 2 = some (s', b) →
        ∀ x, x ∈ s'.Am →
          x ∈ s.Am ∨
          (x = 2 ∧ b = false ∧ 2 ∈ s.A1out ∧ 2 ∉ s.Am ∧ 2 ∉ s.A1in)) ∧
      (2 ∈ s.A1in →
        twoQAccess s 2 = some ({ s with hits := s.hits + 1 }, true))) :=
  ⟨_, _, rfl, rfl,
    twoQ_am_entry_only_from_ghost 2 none none [1, 2, 1] _ _ 2 rfl rfl⟩

/-!
## Claim C9 (constructor capacity validation)
-/

/-- C9: every policy constructor fails (InvalidConfiguration, a raised
ValueError in Cache.__init__) exactly when the requested capacity is not
positive, and succeeds for every positive capacity. -/
theorem constructors_validate_capacity (c : Int) :
    ((mkFIFO c).isSome ↔ 0 < c) ∧
    ((mkLRU c).isSome ↔ 0 < c) ∧
    ((mkLFU c).isSome ↔ 0 < c) ∧
    ((mkARC c).isSome ↔ 0 < c) ∧
    (∀ a1i a1o, (mkTwoQ c a1i a1o).isSome ↔ 0 < c) ∧
    (∀ tr, (mkOPT c tr).isSome ↔ 0 < c) := by
  refine ⟨?_, ?_, ?_, ?_, fun a1i a1o => ?_, fun tr => ?_⟩ <;>
  · simp only [mkFIFO, mkLRU, mkLFU, mkARC, mkTwoQ, mkOPT]
    split <;> simp_all

/-!
## Claim C10 (counters and the simulator record)
-/

/-- Main accounting lemma for Simulator.run: if every access updates
exactly one matching counter and accesses always succeed under an
invariant, the simulator's accumulators track the policy counters and
their sum grows by exactly the trace length. -/
theorem simRun_counts {σ : Type} (access : σ → Nat → Option (σ × Bool))
    (hitsF missesF : σ → Nat) (I : σ → Prop)
    (hc : StepCounts access hitsF missesF) (hsafe : StepSafe access I) :
    ∀ (trace : List Nat) (s : σ) (h m : Nat), I s →
      ∃ h' m' s', simRun access s trace h m = some (h', m', s') ∧
        h' + hitsF s = h + hitsF s' ∧
        m' + missesF s = m + missesF s' ∧
        h' + m' = h + m + trace.length ∧ I s' := by
  intro trace
  induction trace with
  | nil =>
    intro s h m hI
    exact ⟨h, m, s, rfl, rfl, rfl, by simp, hI⟩
  | cons k rest ih =>
    intro s h m hI
    obtain ⟨⟨s1, b, hacc⟩, hpres⟩ := hsafe s hI k
    obtain ⟨hh, hm⟩ := hc s k s1 b hacc
    have hI1 : I s1 := hpres s1 b hacc
    cases b
    · have hh0 : hitsF s1 = hitsF s := hh
      have hm0 : missesF s1 = missesF s + 1 := hm
      clear hh hm
      obtain ⟨h', m', s', hrun, e1, e2, e3, hI'⟩ := ih s1 h (m + 1) hI1
      refine ⟨h', m', s', ?_, by omega, by omega,
        by simp only [List.length_cons]; omega, hI'⟩
      unfold simRun
      rw [hacc]
      exact hrun
    · have hh0 : hitsF s1 = hitsF s + 1 := hh
      have hm0 : missesF s1 = missesF s := hm
      clear hh hm
      obtain ⟨h', m', s', hrun, e1, e2, e3, hI'⟩ := ih s1 (h + 1) m hI1
      refine ⟨h', m', s', ?_, by omega, by omega,
        by simp only [List.length_cons]; omega, hI'⟩
      unfold simRun
      rw [hacc]
      exact hrun

/-- FIFO access increments exactly the matching counter. -/
theorem fifo_step_counts :
    StepCounts fifoAccess FIFOState.hits FIFOState.misses := by
  intro s k s' b h
  unfold fifoAccess at h
  split at h
  · cases h
    exact ⟨rfl, rfl⟩
  · split at h
    · split at h
      · exact absurd h (by simp)
      · cases h
        exact ⟨rfl, rfl⟩
    · cases h
      exact ⟨rfl, rfl⟩

/-- FIFO access always succeeds at positive capacity. -/
theorem fifo_step_safe : StepSafe fifoAccess (fun s => 1 ≤ s.size) := by
  intro s hI k
  constructor
  · unfold fifoAccess
    split
    · exact ⟨_, _, rfl⟩
    · split
      · next hlen =>
        rcases hq : s.queue with _ | ⟨q, rest⟩
        · rw [hq] at hlen
          simp at hlen
          omega
        · exact ⟨_, _, rfl⟩
      · exact ⟨_, _, rfl⟩
  · intro s' b h
    unfold fifoAccess at h
    split at h
    · cases h; exact hI
    · split at h
      · split at h
        · exact absurd h (by simp)
        · cases h; exact hI
      · cases h; exact hI

/-- LRU access increments exactly the matching counter. -/
theorem lru_step_counts :
    StepCounts lruAccess LRUState.hits LRUState.misses := by
  intro s k s' b h
  unfold lruAccess at h
  split at h
  · cases h
    exact ⟨rfl, rfl⟩
  · split at h
    · split at h
      · exact absurd h (by simp)
      · cases h
        exact ⟨rfl, rfl⟩
    · cases h
      exact ⟨rfl, rfl⟩

/-- LRU access always succeeds at positive capacity. -/
theorem lru_step_safe : StepSafe lruAccess (fun s => 1 ≤ s.size) := by
  intro s hI k
  constructor
  · unfold lruAccess
    split
    · exact ⟨_, _, rfl⟩
    · split
      · next hlen =>
        rcases hq : s.data with _ | ⟨q, rest⟩
        · rw [hq] at hlen
          simp at hlen
          omega
        · exact ⟨_, _, rfl⟩
      · exact ⟨_, _, rfl⟩
  · intro s' b h
    unfold lruAccess at h
    split at h
    · cases h; exact hI
    · split at h
      · split at h
        · exact absurd h (by simp)
        · cases h; exact hI
      · cases h; exact hI

/-- The A1in eviction helper never touches the counters. -/
theorem twoQEvictA1in_counts (s : TwoQState) :
    (twoQEvictA1in s).hits = s.hits ∧ (twoQEvictA1in s).misses = s.misses := by
  unfold twoQEvictA1in
  split
  · exact ⟨rfl, rfl⟩
  · dsimp only
    split <;> exact ⟨rfl, rfl⟩

/-- The Am eviction helper never touches the counters. -/
theorem twoQEvictAm_counts (s : TwoQState) :
    (twoQEvictAm s).hits = s.hits ∧ (twoQEvictAm s).misses = s.misses := by
  unfold twoQEvictAm
  split <;> exact ⟨rfl, rfl⟩

/-- 2Q access increments exactly the matching counter. -/
theorem twoQ_step_counts :
    StepCounts twoQAccess TwoQState.hits TwoQState.misses := by
  intro s k s' b h
  unfold twoQAccess at h
  dsimp only at h
  split at h
  · cases h
    exact ⟨rfl, rfl⟩
  · split at h
    · cases h
      exact ⟨rfl, rfl⟩
    · split at h
      · split at h
        · cases h
          exact ⟨(twoQEvictAm_counts _).1, (twoQEvictAm_counts _).2⟩
        · cases h
          exact ⟨rfl, rfl⟩
      · split at h
        · cases h
          exact ⟨(twoQEvictA1in_counts _).1, (twoQEvictA1in_counts _).2⟩
        · cases h
          exact ⟨rfl, rfl⟩

/-- 2Q access never fails. -/
theorem twoQ_step_safe : StepSafe twoQAccess (fun _ => True) := by
  intro s _ k
  refine ⟨?_, fun s' b h => trivial⟩
  unfold twoQAccess
  dsimp only
  split
  · exact ⟨_, _, rfl⟩
  · split
    · exact ⟨_, _, rfl⟩
    · split
      · split <;> exact ⟨_, _, rfl⟩
      · split <;> exact ⟨_, _, rfl⟩

/-- ARC access increments exactly the matching counter. -/
theorem arc_step_counts :
    StepCounts arcAccess ARCState.hits ARCState.misses := by
  intro s k s' b h
  unfold arcAccess at h
  dsimp only at h
  split at h
  · cases h
    exact ⟨rfl, rfl⟩
  · split at h
    · cases h
      exact ⟨rfl, rfl⟩
    · split at h
      · cases h
        refine ⟨?_, ?_⟩
        · exact (arcReplace_preserves (some k)
            (arcAdaptB1 { s with misses := s.misses + 1 })).2.2.1
        · exact (arcReplace_preserves (some k)
            (arcAdaptB1 { s with misses := s.misses + 1 })).2.2.2
      · split at h
        · cases h
          refine ⟨?_, ?_⟩
          · exact (arcReplace_preserves (some k)
              (arcAdaptB2 { s with misses := s.misses + 1 })).2.2.1
          · exact (arcReplace_preserves (some k)
              (arcAdaptB2 { s with misses := s.misses + 1 })).2.2.2
        · split at h
          · exact absurd h (by simp)
          · next s2 heq =>
            cases h
            refine ⟨?_, ?_⟩
            · exact (arcEnsureSpace_preserves _ _ heq).2.2.1
            · exact (arcEnsureSpace_preserves _ _ heq).2.2.2

/-- At positive capacity the space-ensuring step always succeeds: the two
falling popitem calls are arithmetically unreachable. -/
theorem arcEnsureSpace_total (s : ARCState) (hI : 1 ≤ s.size) :
    ∃ s2, arcEnsureSpace s = some s2 := by
  unfold arcEnsureSpace
  dsimp only
  by_cases h1 : s.T1.length + s.B1.length = s.size
  · rw [if_pos h1]
    by_cases h2 : s.T1.length < s.size
    · rw [if_pos h2]
      rcases hb : s.B1 with _ | ⟨x, rest⟩
      · rw [hb] at h1
        simp at h1
        omega
      · exact ⟨_, rfl⟩
    · rw [if_neg h2]
      rcases ht : s.T1 with _ | ⟨x, rest⟩
      · rw [ht] at h2
        simp at h2
        omega
      · exact ⟨_, rfl⟩
  · rw [if_neg h1]
    split
    · exact ⟨_, rfl⟩
    · exact ⟨_, rfl⟩

/-- ARC access always succeeds at positive capacity. -/
theorem arc_step_safe : StepSafe arcAccess (fun s => 1 ≤ s.size) := by
  intro s hI k
  constructor
  · unfold arcAccess
    dsimp only
    split
    · exact ⟨_, _, rfl⟩
    · split
      · exact ⟨_, _, rfl⟩
      · split
        · exact ⟨_, _, rfl⟩
        · split
          · exact ⟨_, _, rfl⟩
          · obtain ⟨s2, hs2⟩ :=
              arcEnsureSpace_total { s with misses := s.misses + 1 } hI
            rw [hs2]
            exact ⟨_, _, rfl⟩
  · intro s' b h
    have hsz := (arcAccess_p_step s k s' b h).1
    omega

/-- The drop-current-reference step only touches future_positions. -/
theorem optDropRef_fields (s : OPTState) (k : Nat) :
    (optDropRef s k).hits = s.hits ∧ (optDropRef s k).misses = s.misses ∧
    (optDropRef s k).cache = s.cache ∧ (optDropRef s k).size = s.size ∧
    (optDropRef s k).currentStep = s.currentStep := by
  unfold optDropRef
  split
  · exact ⟨rfl, rfl, rfl, rfl, rfl⟩
  · split <;> exact ⟨rfl, rfl, rfl, rfl, rfl⟩

/-- OPT access increments exactly the matching counter. -/
theorem opt_step_counts :
    StepCounts optAccess OPTState.hits OPTState.misses := by
  intro s k s' b h
  obtain ⟨e1, e2, e3, e4, e5⟩ := optDropRef_fields s k
  unfold optAccess at h
  dsimp only at h
  split at h
  · cases h
    exact ⟨by simp [e1], by simp [e2]⟩
  · split at h
    · split at h
      · exact absurd h (by simp)
      · cases h
        exact ⟨by simp [e1], by simp [e2]⟩
    · cases h
      exact ⟨by simp [e1], by simp [e2]⟩

/-- The select-victim loop returns a victim once it has a candidate. -/
theorem optSelectAux_some_of_isSome (fp : Nat → List Nat) (l : List Nat) :
    ∀ (far : Int) (v : Option Nat), v.isSome →
      (optSelectAux fp l far v).isSome := by
  induction l with
  | nil =>
    intro far v hv
    simpa [optSelectAux] using hv
  | cons p rest ih =>
    intro far v hv
    unfold optSelectAux
    split
    · simp
    · split
      · exact ih _ _ (by simp)
      · exact ih _ _ hv

/-- On a nonempty cache the victim selection succeeds (the assert cannot
fire). -/
theorem optSelectVictim_isSome (s : OPTState) (h : s.cache ≠ []) :
    (optSelectVictim s).isSome := by
  unfold optSelectVictim
  rcases hc : s.cache with _ | ⟨p, rest⟩
  · exact absurd hc h
  · unfold optSelectAux
    split
    · simp
    · next q tail heq =>
      rw [if_pos (by omega : (q : Int) > -1)]
      exact optSelectAux_some_of_isSome s.futurePositions rest q (some p)
        (by simp)

/-- OPT access always succeeds at positive capacity. -/
theorem opt_step_safe : StepSafe optAccess (fun s => 1 ≤ s.size) := by
  intro s hI k
  obtain ⟨e1, e2, e3, e4, e5⟩ := optDropRef_fields s k
  constructor
  · unfold optAccess
    dsimp only
    split
    · exact ⟨_, _, rfl⟩
    · split
      · next hlen =>
        have hcne : (optDropRef s k).cache ≠ [] := by
          intro hnil
          rw [hnil] at hlen
          simp at hlen
          rw [e4] at hlen
          omega
        obtain ⟨v, hv⟩ := Option.isSome_iff_exists.mp
          (optSelectVictim_isSome { optDropRef s k with
            misses := (optDropRef s k).misses + 1 } hcne)
        rw [hv]
        exact ⟨_, _, rfl⟩
      · exact ⟨_, _, rfl⟩
  · intro s' b h
    unfold optAccess at h
    dsimp only at h
    split at h
    · cases h
      show 1 ≤ (optDropRef s k).size
      rw [e4]
      exact hI
    · split at h
      · split at h
        · exact absurd h (by simp)
        · cases h
          show 1 ≤ (optDropRef s k).size
          rw [e4]
          exact hI
      · cases h
        show 1 ≤ (optDropRef s k).size
        rw [e4]
        exact hI

/-- Evaluating a pointwise update at the updated point. -/
theorem fnUpd_self (m : Nat → List Nat) (x : Nat) (v : List Nat) :
    fnUpd m x v x = v := by
  simp [fnUpd]

/-- Evaluating a pointwise update away from the updated point. -/
theorem fnUpd_ne (m : Nat → List Nat) (x : Nat) (v : List Nat) (y : Nat)
    (h : y ≠ x) : fnUpd m x v y = m y := by
  simp [fnUpd, h]

/-- LFU access increments exactly the matching counter. -/
theorem lfu_step_counts :
    StepCounts lfuAccess LFUState.hits LFUState.misses := by
  intro s k s' b h
  unfold lfuAccess at h
  split at h
  · cases h
    exact ⟨rfl, rfl⟩
  · dsimp only at h
    split at h
    · split at h
      · exact absurd h (by simp)
      · cases h
        exact ⟨rfl, rfl⟩
    · cases h
      exact ⟨rfl, rfl⟩

/-- LFU access always succeeds and keeps the min-freq bucket nonempty on
a nonempty cache (the invariant that makes the eviction popitem safe). -/
theorem lfu_step_safe : StepSafe lfuAccess
    (fun s => 1 ≤ s.size ∧
      (s.keyFreq ≠ [] → s.freqKeys s.minFreq ≠ [])) := by
  intro s hI k
  obtain ⟨hsz, hmin⟩ := hI
  constructor
  · unfold lfuAccess
    split
    · exact ⟨_, _, rfl⟩
    · next hlook =>
      dsimp only
      split
      · next hlen =>
        have hne : s.keyFreq ≠ [] := by
          intro he
          rw [he] at hlen
          simp at hlen
          omega
        rcases hbk : s.freqKeys s.minFreq with _ | ⟨v, rest⟩
        · exact absurd hbk (hmin hne)
        · exact ⟨_, _, rfl⟩
      · exact ⟨_, _, rfl⟩
  · intro s' b h
    unfold lfuAccess at h
    split at h
    · next f hlook =>
      cases h
      have hne : s.keyFreq ≠ [] := by
        intro he
        rw [he] at hlook
        simp [List.lookup] at hlook
      refine ⟨hsz, fun _ => ?_⟩
      show fnUpd (fnUpd s.freqKeys f ((s.freqKeys f).erase k)) (f + 1)
        (odInsert ((fnUpd s.freqKeys f ((s.freqKeys f).erase k)) (f + 1)) k)
        (if (s.freqKeys f).erase k = [] ∧ s.minFreq = f
         then s.minFreq + 1 else s.minFreq) ≠ []
      by_cases hcond : ((s.freqKeys f).erase k = [] ∧ s.minFreq = f)
      · rw [if_pos hcond]
        rw [show s.minFreq + 1 = f + 1 by rw [hcond.2]]
        rw [fnUpd_self]
        exact odInsert_ne_nil _ _
      · rw [if_neg hcond]
        by_cases h1 : s.minFreq = f + 1
        · rw [h1, fnUpd_self]
          exact odInsert_ne_nil _ _
        · rw [fnUpd_ne _ _ _ _ h1]
          by_cases h2 : s.minFreq = f
          · rw [h2, fnUpd_self]
            exact fun hbe => hcond ⟨hbe, h2⟩
          · rw [fnUpd_ne _ _ _ _ h2]
            exact hmin hne
    · dsimp only at h
      split at h
      · split at h
        · exact absurd h (by simp)
        · next v rest hbk =>
          cases h
          refine ⟨hsz, fun _ => ?_⟩
          show fnUpd (fnUpd s.freqKeys s.minFreq rest) 1
            (odInsert (fnUpd s.freqKeys s.minFreq rest 1) k) 1 ≠ []
          rw [fnUpd_self]
          exact odInsert_ne_nil _ _
      · cases h
        refine ⟨hsz, fun _ => ?_⟩
        show fnUpd s.freqKeys 1 (odInsert (s.freqKeys 1) k) 1 ≠ []
        rw [fnUpd_self]
        exact odInsert_ne_nil _ _

/-- Packaging of simRun_counts at fresh counters: Simulator.run returns a
record whose hit and miss counts sum to the trace length and agree with
the policy's own final counters. -/
theorem simulatorRun_spec {σ : Type} (access : σ → Nat → Option (σ × Bool))
    (hitsF missesF : σ → Nat) (I : σ → Prop)
    (hc : StepCounts access hitsF missesF) (hsafe : StepSafe access I)
    (cSize : Nat) (s0 : σ) (trace : List Nat) (hI0 : I s0)
    (hh0 : hitsF s0 = 0) (hm0 : missesF s0 = 0) :
    ∃ r s', simulatorRun access cSize s0 trace = some (r, s') ∧
      r.totalRequests = trace.length ∧
      r.hits + r.misses = r.totalRequests ∧
      r.hits = hitsF s' ∧ r.misses = missesF s' := by
  obtain ⟨h', m', s', hrun, e1, e2, e3, hI'⟩ :=
    simRun_counts access hitsF missesF I hc hsafe trace s0 0 0 hI0
  refine ⟨{ cacheSize := cSize, totalRequests := trace.length,
            hits := h', misses := m' }, s', ?_,
    rfl, by dsimp only; omega, by dsimp only; omega, by dsimp only; omega⟩
  unfold simulatorRun
  rw [hrun]

/-- C10: on each of the six policies every access increments exactly one
of the hit and miss counters (the one matching its boolean result), and
Simulator.run over any trace on a freshly constructed policy of capacity
n+1 yields a result with hits + misses = total_requests = trace length,
whose hits and misses equal the final get_stats counters. -/
theorem access_counting_and_simulator_totals (n : Nat) (trace : List Nat) :
    StepCounts fifoAccess FIFOState.hits FIFOState.misses ∧
    StepCounts lruAccess LRUState.hits LRUState.misses ∧
    StepCounts lfuAccess LFUState.hits LFUState.misses ∧
    StepCounts arcAccess ARCState.hits ARCState.misses ∧
    StepCounts twoQAccess TwoQState.hits TwoQState.misses ∧
    StepCounts optAccess OPTState.hits OPTState.misses ∧
    (∃ s0 r s', mkFIFO ((n : Int) + 1) = some s0 ∧
      simulatorRun fifoAccess (n + 1) s0 trace = some (r, s') ∧
      r.totalRequests = trace.length ∧
      r.hits + r.misses = r.totalRequests ∧
      r.hits = (fifoGetStats s').1 ∧ r.misses = (fifoGetStats s').2) ∧
    (∃ s0 r s', mkLRU ((n : Int) + 1) = some s0 ∧
      simulatorRun lruAccess (n + 1) s0 trace = some (r, s') ∧
      r.totalRequests = trace.length ∧
      r.hits + r.misses = r.totalRequests ∧
      r.hits = (lruGetStats s').1 ∧ r.misses = (lruGetStats s').2) ∧
    (∃ s0 r s', mkLFU ((n : Int) + 1) = some s0 ∧
      simulatorRun lfuAccess (n + 1) s0 trace = some (r, s') ∧
      r.totalRequests = trace.length ∧
      r.hits + r.misses = r.totalRequests ∧
      r.hits = (lfuGetStats s').1 ∧ r.misses = (lfuGetStats s').2) ∧
    (∃ s0 r s', mkARC ((n : Int) + 1) = some s0 ∧
      simulatorRun arcAccess (n + 1) s0 trace = some (r, s') ∧
      r.totalRequests = trace.length ∧
      r.hits + r.misses = r.totalRequests ∧
      r.hits = (arcGetStats s').1 ∧ r.misses = (arcGetStats s').2.1) ∧
    (∃ s0 r s', mkTwoQ ((n : Int) + 1) none none = some s0 ∧
      simulatorRun twoQAccess (n + 1) s0 trace = some (r, s') ∧
      r.totalRequests = trace.length ∧
      r.hits + r.misses = r.totalRequests ∧
      r.hits = (twoQGetStats s').1 ∧ r.misses = (twoQGetStats s').2.1) ∧
    (∃ s0 r s', mkOPT ((n : Int) + 1) (some trace) = some s0 ∧
      simulatorRun optAccess (n + 1) s0 trace = some (r, s') ∧
      r.totalRequests = trace.length ∧
      r.hits + r.misses = r.totalRequests ∧
      r.hits = (optGetStats s').1 ∧ r.misses = (optGetStats s').2) := by
  have hpos : ¬ ((n : Int) + 1 ≤ 0) := by omega
  have hsz : 1 ≤ ((n : Int) + 1).toNat := by omega
  refine ⟨fifo_step_counts, lru_step_counts, lfu_step_counts,
    arc_step_counts, twoQ_step_counts, opt_step_counts, ?_, ?_, ?_, ?_, ?_, ?_⟩
  · obtain ⟨r, s', h1, h2, h3, h4, h5⟩ :=
      simulatorRun_spec fifoAccess FIFOState.hits FIFOState.misses _
        fifo_step_counts fifo_step_safe (n + 1)
        { size := ((n : Int) + 1).toNat, queue := [], hits := 0, misses := 0 }
        trace hsz rfl rfl
    exact ⟨_, r, s', by rw [mkFIFO, if_neg hpos], h1, h2, h3, h4, h5⟩
  · obtain ⟨r, s', h1, h2, h3, h4, h5⟩ :=
      simulatorRun_spec lruAccess LRUState.hits LRUState.misses _
        lru_step_counts lru_step_safe (n + 1)
        { size := ((n : Int) + 1).toNat, data := [], hits := 0, misses := 0 }
        trace hsz rfl rfl
    exact ⟨_, r, s', by rw [mkLRU, if_neg hpos], h1, h2, h3, h4, h5⟩
  · obtain ⟨r, s', h1, h2, h3, h4, h5⟩ :=
      simulatorRun_spec lfuAccess LFUState.hits LFUState.misses _
        lfu_step_counts lfu_step_safe (n + 1)
        { size := ((n : Int) + 1).toNat, keyFreq := [],
          freqKeys := fun _ => [], minFreq := 0, hits := 0, misses := 0 }
        trace ⟨hsz, fun he => absurd rfl he⟩ rfl rfl
    exact ⟨_, r, s', by rw [mkLFU, if_neg hpos], h1, h2, h3, h4, h5⟩
  · obtain ⟨r, s', h1, h2, h3, h4, h5⟩ :=
      simulatorRun_spec arcAccess ARCState.hits ARCState.misses _
        arc_step_counts arc_step_safe (n + 1)
        { size := ((n : Int) + 1).toNat, T1 := [], T2 := [], B1 := [],
          B2 := [], p := 0, hits := 0, misses := 0 }
        trace hsz rfl rfl
    exact ⟨_, r, s', by rw [mkARC, if_neg hpos], h1, h2, h3, h4, h5⟩
  · obtain ⟨r, s', h1, h2, h3, h4, h5⟩ :=
      simulatorRun_spec twoQAccess TwoQState.hits TwoQState.misses _
        twoQ_step_counts twoQ_step_safe (n + 1)
        { size := ((n : Int) + 1).toNat,
          sizeIn := (max 1 (min ((n : Int) + 1 - 1)
            ((Option.none (α := Int)).getD (((n : Int) + 1) / 2)))).toNat,
          sizeOut := (max 1 ((Option.none (α := Int)).getD 16)).toNat,
          sizeAm := (max 1 ((n : Int) + 1 - max 1 (min ((n : Int) + 1 - 1)
            ((Option.none (α := Int)).getD (((n : Int) + 1) / 2))))).toNat,
          A1in := [], A1out := [], Am := [], hits := 0, misses := 0 }
        trace trivial rfl rfl
    exact ⟨_, r, s', by rw [mkTwoQ, if_neg hpos], h1, h2, h3, h4, h5⟩
  · obtain ⟨r, s', h1, h2, h3, h4, h5⟩ :=
      simulatorRun_spec optAccess OPTState.hits OPTState.misses _
        opt_step_counts opt_step_safe (n + 1)
        { size := ((n : Int) + 1).toNat, tracePreloaded := (some trace).isSome,
          futurePositions := optPreprocess trace, cache := [],
          currentStep := 0, hits := 0, misses := 0 }
        trace hsz rfl rfl
    exact ⟨_, r, s', by rw [mkOPT, if_neg hpos], h1, h2, h3, h4, h5⟩

/-!
## Association-list facts for the LFU dict model
-/

/-- List.lookup at the head key. -/
theorem lookup_cons_self (x b : Nat) (es : List (Nat × Nat)) :
    List.lookup x ((x, b) :: es) = some b := by
  simp [List.lookup]

/-- List.lookup skips a head with a different key. -/
theorem lookup_cons_ne (x a b : Nat) (es : List (Nat × Nat)) (h : x ≠ a) :
    List.lookup x ((a, b) :: es) = List.lookup x es := by
  rw [List.lookup, beq_false_of_ne h]

/-- A found binding survives appending on the right. -/
theorem lookup_append_left (x : Nat) (l1 l2 : List (Nat × Nat)) (y : Nat)
    (h : List.lookup x l1 = some y) :
    List.lookup x (l1 ++ l2) = some y := by
  induction l1 with
  | nil => simp [List.lookup] at h
  | cons e es ih =>
    obtain ⟨a, b⟩ := e
    by_cases hx : x = a
    · subst hx
      rw [lookup_cons_self] at h
      rw [List.cons_append, lookup_cons_self]
      exact h
    · rw [lookup_cons_ne _ _ _ _ hx] at h
      rw [List.cons_append, lookup_cons_ne _ _ _ _ hx]
      exact ih h

/-- Looking up past a prefix with no binding for the key. -/
theorem lookup_append_right (x : Nat) (l1 l2 : List (Nat × Nat))
    (h : List.lookup x l1 = none) :
    List.lookup x (l1 ++ l2) = List.lookup x l2 := by
  induction l1 with
  | nil => simp
  | cons e es ih =>
    obtain ⟨a, b⟩ := e
    by_cases hx : x = a
    · subst hx
      rw [lookup_cons_self] at h
      exact absurd h (by simp)
    · rw [lookup_cons_ne _ _ _ _ hx] at h
      rw [List.cons_append, lookup_cons_ne _ _ _ _ hx]
      exact ih h

/-- A key is absent from an association list iff lookup fails. -/
theorem lookup_eq_none_iff (x : Nat) (l : List (Nat × Nat)) :
    List.lookup x l = none ↔ x ∉ l.map Prod.fst := by
  induction l with
  | nil => simp [List.lookup]
  | cons e es ih =>
    obtain ⟨a, b⟩ := e
    by_cases hx : x = a
    · subst hx
      rw [lookup_cons_self]
      simp
    · rw [lookup_cons_ne _ _ _ _ hx]
      simp only [List.map_cons, List.mem_cons]
      rw [ih]
      constructor
      · rintro h (h1 | h1)
        · exact hx h1
        · exact h h1
      · exact fun h h1 => h (Or.inr h1)

/-- Updating the value at key k inside the entry list does not disturb
lookups of other keys. -/
theorem lookup_mapSet_ne (l : List (Nat × Nat)) (k v x : Nat)
    (hx : x ≠ k) :
    List.lookup x (l.map (fun e => if e.1 = k then (k, v) else e)) =
      List.lookup x l := by
  induction l with
  | nil => simp
  | cons e es ih =>
    obtain ⟨a, b⟩ := e
    rw [List.map_cons]
    by_cases hk : a = k
    · subst hk
      rw [if_pos rfl, lookup_cons_ne _ _ _ _ hx, lookup_cons_ne _ _ _ _ hx]
      exact ih
    · rw [if_neg (by simpa using hk)]
      by_cases hxa : x = a
      · subst hxa
        rw [lookup_cons_self, lookup_cons_self]
      · rw [lookup_cons_ne _ _ _ _ hxa, lookup_cons_ne _ _ _ _ hxa]
        exact ih

/-- Updating the value at a present key k makes lookup of k return the
new value. -/
theorem lookup_mapSet_self (l : List (Nat × Nat)) (k v : Nat)
    (h : (List.lookup k l).isSome) :
    List.lookup k (l.map (fun e => if e.1 = k then (k, v) else e)) =
      some v := by
  induction l with
  | nil => simp [List.lookup] at h
  | cons e es ih =>
    obtain ⟨a, b⟩ := e
    rw [List.map_cons]
    by_cases hk : a = k
    · subst hk
      rw [if_pos rfl, lookup_cons_self]
    · rw [if_neg (by simpa using hk)]
      rw [lookup_cons_ne _ _ _ _ (fun he => hk he.symm)]
      rw [lookup_cons_ne _ _ _ _ (fun he => hk he.symm)] at h
      exact ih h

/-- Assigning an existing key leaves the key list unchanged. -/
theorem assocSet_map_fst (l : List (Nat × Nat)) (k v : Nat)
    (h : (List.lookup k l).isSome) :
    (assocSet l k v).map Prod.fst = l.map Prod.fst := by
  unfold assocSet
  rw [if_pos h, List.map_map]
  congr 1
  funext e
  by_cases he : e.1 = k
  · simp [he]
  · simp [he]

/-- Looking up the assigned key returns the assigned value. -/
theorem lookup_assocSet_self (l : List (Nat × Nat)) (k v : Nat) :
    List.lookup k (assocSet l k v) = some v := by
  unfold assocSet
  split
  · next hsome => exact lookup_mapSet_self l k v hsome
  · next hnone =>
    have hn : List.lookup k l = none := by
      cases hl : List.lookup k l
      · rfl
      · rw [hl] at hnone
        simp at hnone
    rw [lookup_append_right _ _ _ hn, lookup_cons_self]

/-- Assignment does not disturb other keys. -/
theorem lookup_assocSet_ne (l : List (Nat × Nat)) (k v x : Nat)
    (hx : x ≠ k) : List.lookup x (assocSet l k v) = List.lookup x l := by
  unfold assocSet
  split
  · exact lookup_mapSet_ne l k v x hx
  · cases hl : List.lookup x l
    · rw [lookup_append_right _ _ _ hl, lookup_cons_ne _ _ _ _ hx]
      simp [List.lookup]
    · exact lookup_append_left _ _ _ _ hl

/-- Deleting key v from an association list with distinct keys removes
its binding. -/
theorem lookup_eraseP_self (l : List (Nat × Nat)) (v : Nat)
    (hnd : (l.map Prod.fst).Nodup) :
    List.lookup v (l.eraseP (fun e => decide (e.1 = v))) = none := by
  induction l with
  | nil => simp [List.lookup]
  | cons e es ih =>
    obtain ⟨a, b⟩ := e
    rw [List.map_cons, List.nodup_cons] at hnd
    by_cases hv : a = v
    · rw [List.eraseP_cons_of_pos (by simpa using hv)]
      rw [lookup_eq_none_iff]
      rw [← hv]
      exact hnd.1
    · rw [List.eraseP_cons_of_neg (by simpa using hv)]
      rw [lookup_cons_ne _ _ _ _ (fun he => hv he.symm)]
      exact ih hnd.2

/-- Deleting key v does not disturb other keys. -/
theorem lookup_eraseP_ne (l : List (Nat × Nat)) (v x : Nat) (hx : x ≠ v) :
    List.lookup x (l.eraseP (fun e => decide (e.1 = v))) =
      List.lookup x l := by
  induction l with
  | nil => simp
  | cons e es ih =>
    obtain ⟨a, b⟩ := e
    by_cases hv : a = v
    · subst hv
      rw [List.eraseP_cons_of_pos (by simp)]
      rw [lookup_cons_ne _ _ _ _ hx]
    · rw [List.eraseP_cons_of_neg (by simpa using hv)]
      by_cases hxa : x = a
      · subst hxa
        rw [lookup_cons_self, lookup_cons_self]
      · rw [lookup_cons_ne _ _ _ _ hxa, lookup_cons_ne _ _ _ _ hxa]
        exact ih

/-- Deletion keeps the key list a sublist of the original. -/
theorem eraseP_map_fst_sublist (l : List (Nat × Nat)) (v : Nat) :
    ((l.eraseP (fun e => decide (e.1 = v))).map Prod.fst).Sublist
      (l.map Prod.fst) :=
  (List.eraseP_sublist l).map Prod.fst

/-!
## Claim C8 (LFU eviction order)
-/

/-- A bump (hit) preserves the LFU internal-consistency invariant. -/
theorem lfuBump_inv (s : LFUState) (k : Nat) (f : Nat)
    (hlook : List.lookup k s.keyFreq = some f) (hI : LFUInv s) :
    LFUInv (lfuBump s k f) := by
  obtain ⟨inv1, inv2, inv3, inv4, inv5⟩ := hI
  obtain ⟨hf1, hmf, hkmem⟩ := inv1 k f hlook
  unfold lfuBump LFUInv
  dsimp only
  refine ⟨?_, ?_, ?_, ?_, ?_⟩
  · -- positive frequencies, minimality of min_freq, key in its bucket
    intro x g hx
    by_cases hxk : x = k
    · subst hxk
      rw [lookup_assocSet_self] at hx
      obtain rfl : f + 1 = g := Option.some.inj hx
      refine ⟨by omega, ?_, ?_⟩
      · split
        · next hcond => omega
        · omega
      · rw [fnUpd_self]
        exact self_mem_odInsert _ _
    · rw [lookup_assocSet_ne _ _ _ _ hxk] at hx
      obtain ⟨hg1, hg2, hg3⟩ := inv1 x g hx
      refine ⟨hg1, ?_, ?_⟩
      · split
        · next hcond =>
          have hgf : g ≠ f := by
            intro hgf
            subst hgf
            have hxb : x ∈ (s.freqKeys g).erase k :=
              (List.mem_erase_of_ne hxk).mpr hg3
            rw [hcond.1] at hxb
            exact absurd hxb (List.not_mem_nil x)
          have := hcond.2
          omega
        · exact hg2
      · by_cases hg4 : g = f + 1
        · subst hg4
          rw [fnUpd_self, fnUpd_ne _ _ _ _ (Nat.succ_ne_self f)]
          exact (mem_odInsert x k _).mpr (Or.inl hg3)
        · rw [fnUpd_ne _ _ _ _ hg4]
          by_cases hg5 : g = f
          · subst hg5
            rw [fnUpd_self]
            exact (List.mem_erase_of_ne hxk).mpr hg3
          · rw [fnUpd_ne _ _ _ _ hg5]
            exact hg3
  · -- buckets only hold keys at their own frequency
    intro g x hx
    by_cases hg4 : g = f + 1
    · subst hg4
      rw [fnUpd_self, fnUpd_ne _ _ _ _ (Nat.succ_ne_self f)] at hx
      rcases (mem_odInsert x k _).mp hx with hx2 | rfl
      · have hlx := inv2 (f + 1) x hx2
        have hxk : x ≠ k := by
          intro he
          subst he
          rw [hlook] at hlx
          have := Option.some.inj hlx
          omega
        rw [lookup_assocSet_ne _ _ _ _ hxk]
        exact hlx
      · exact lookup_assocSet_self _ _ _
    · rw [fnUpd_ne _ _ _ _ hg4] at hx
      by_cases hg5 : g = f
      · subst hg5
        rw [fnUpd_self] at hx
        have hxk : x ≠ k := ((List.Nodup.mem_erase_iff (inv3 g)).mp hx).1
        rw [lookup_assocSet_ne _ _ _ _ hxk]
        exact inv2 g x (List.mem_of_mem_erase hx)
      · rw [fnUpd_ne _ _ _ _ hg5] at hx
        have hlx := inv2 g x hx
        have hxk : x ≠ k := by
          intro he
          subst he
          rw [hlook] at hlx
          exact hg5 (Option.some.inj hlx).symm
        rw [lookup_assocSet_ne _ _ _ _ hxk]
        exact hlx
  · -- buckets stay duplicate-free
    intro g
    by_cases hg4 : g = f + 1
    · subst hg4
      rw [fnUpd_self, fnUpd_ne _ _ _ _ (Nat.succ_ne_self f)]
      exact nodup_odInsert _ _ (inv3 (f + 1))
    · rw [fnUpd_ne _ _ _ _ hg4]
      by_cases hg5 : g = f
      · subst hg5
        rw [fnUpd_self]
        exact (inv3 g).erase k
      · rw [fnUpd_ne _ _ _ _ hg5]
        exact inv3 g
  · -- dict keys stay duplicate-free
    rw [assocSet_map_fst _ _ _ (by rw [hlook]; rfl)]
    exact inv4
  · -- the min_freq bucket stays nonempty
    intro _
    have hne : s.keyFreq ≠ [] := by
      intro he
      rw [he] at hlook
      simp [List.lookup] at hlook
    by_cases hcond : ((s.freqKeys f).erase k = [] ∧ s.minFreq = f)
    · rw [if_pos hcond, show s.minFreq + 1 = f + 1 by rw [hcond.2],
        fnUpd_self]
      exact odInsert_ne_nil _ _
    · rw [if_neg hcond]
      by_cases h1 : s.minFreq = f + 1
      · rw [h1, fnUpd_self]
        exact odInsert_ne_nil _ _
      · rw [fnUpd_ne _ _ _ _ h1]
        by_cases h2 : s.minFreq = f
        · rw [h2, fnUpd_self]
          exact fun hbe => hcond ⟨hbe, h2⟩
        · rw [fnUpd_ne _ _ _ _ h2]
          exact inv5 hne

/-- Inserting a brand-new key without eviction preserves the LFU
invariant. -/
theorem lfu_insert_inv (s : LFUState) (k : Nat)
    (hlook : List.lookup k s.keyFreq = none) (hI : LFUInv s) :
    LFUInv { s with
      keyFreq := s.keyFreq ++ [(k, 1)],
      freqKeys := fnUpd s.freqKeys 1 (odInsert (s.freqKeys 1) k),
      minFreq := 1 } := by
  obtain ⟨inv1, inv2, inv3, inv4, inv5⟩ := hI
  have hkabs : k ∉ s.keyFreq.map Prod.fst := (lookup_eq_none_iff _ _).mp hlook
  unfold LFUInv
  dsimp only
  refine ⟨?_, ?_, ?_, ?_, ?_⟩
  · intro x g hx
    by_cases hxk : x = k
    · subst hxk
      rw [lookup_append_right _ _ _ hlook, lookup_cons_self] at hx
      obtain rfl : 1 = g := Option.some.inj hx
      refine ⟨le_refl 1, le_refl 1, ?_⟩
      rw [fnUpd_self]
      exact self_mem_odInsert _ _
    · cases hl : List.lookup x s.keyFreq with
      | none =>
        rw [lookup_append_right _ _ _ hl, lookup_cons_ne _ _ _ _ hxk] at hx
        simp [List.lookup] at hx
      | some w =>
        rw [lookup_append_left _ _ _ _ hl] at hx
        have hl2 : List.lookup x s.keyFreq = some g := by rw [hl, hx]
        obtain ⟨hg1, hg2, hg3⟩ := inv1 x g hl2
        refine ⟨hg1, hg1, ?_⟩
        by_cases hg4 : g = 1
        · subst hg4
          rw [fnUpd_self]
          exact (mem_odInsert x k _).mpr (Or.inl hg3)
        · rw [fnUpd_ne _ _ _ _ hg4]
          exact hg3
  · intro g x hx
    by_cases hg4 : g = 1
    · subst hg4
      rw [fnUpd_self] at hx
      rcases (mem_odInsert x k _).mp hx with hx2 | rfl
      · have hlx := inv2 1 x hx2
        have hxk : x ≠ k := by
          intro he
          subst he
          rw [hlook] at hlx
          cases hlx
        exact lookup_append_left _ _ _ _ hlx
      · rw [lookup_append_right _ _ _ hlook, lookup_cons_self]
    · rw [fnUpd_ne _ _ _ _ hg4] at hx
      exact lookup_append_left _ _ _ _ (inv2 g x hx)
  · intro g
    by_cases hg4 : g = 1
    · subst hg4
      rw [fnUpd_self]
      exact nodup_odInsert _ _ (inv3 1)
    · rw [fnUpd_ne _ _ _ _ hg4]
      exact inv3 g
  · rw [List.map_append]
    rw [List.nodup_append]
    refine ⟨inv4, List.nodup_singleton k, fun a ha hmem => ?_⟩
    have hak : a = k := by simpa using hmem
    exact hkabs (hak ▸ ha)
  · intro _
    rw [fnUpd_self]
    exact odInsert_ne_nil _ _

/-- Evicting the front of the min-freq bucket and inserting a brand-new
key preserves the LFU invariant. -/
theorem lfu_evict_insert_inv (s : LFUState) (k v : Nat) (rest : List Nat)
    (hlook : List.lookup k s.keyFreq = none)
    (hbk : s.freqKeys s.minFreq = v :: rest) (hI : LFUInv s) :
    LFUInv { s with
      keyFreq := (s.keyFreq.eraseP (fun e => decide (e.1 = v))) ++ [(k, 1)],
      freqKeys := fnUpd (fnUpd s.freqKeys s.minFreq rest) 1
        (odInsert ((fnUpd s.freqKeys s.minFreq rest) 1) k),
      minFreq := 1 } := by
  obtain ⟨inv1, inv2, inv3, inv4, inv5⟩ := hI
  have hvmem : v ∈ s.freqKeys s.minFreq := by
    rw [hbk]
    exact List.mem_cons_self v rest
  have hvlook : List.lookup v s.keyFreq = some s.minFreq := inv2 _ _ hvmem
  have hvk : v ≠ k := by
    intro he
    rw [he, hlook] at hvlook
    cases hvlook
  have hbnd : (v :: rest).Nodup := by
    rw [← hbk]
    exact inv3 s.minFreq
  have hvrest : v ∉ rest := (List.nodup_cons.mp hbnd).1
  have hrestnd : rest.Nodup := (List.nodup_cons.mp hbnd).2
  have hkabs : k ∉ s.keyFreq.map Prod.fst := (lookup_eq_none_iff _ _).mp hlook
  have hkeP : List.lookup k
      (s.keyFreq.eraseP (fun e => decide (e.1 = v))) = none := by
    rw [lookup_eq_none_iff]
    exact fun hmem => hkabs ((eraseP_map_fst_sublist _ _).subset hmem)
  have hklook : List.lookup k
      ((s.keyFreq.eraseP (fun e => decide (e.1 = v))) ++ [(k, 1)]) =
      some 1 := by
    rw [lookup_append_right _ _ _ hkeP, lookup_cons_self]
  have hvlook2 : List.lookup v
      ((s.keyFreq.eraseP (fun e => decide (e.1 = v))) ++ [(k, 1)]) =
      none := by
    rw [lookup_append_right _ _ _ (lookup_eraseP_self _ _ inv4),
      lookup_cons_ne _ _ _ _ hvk]
    rfl
  have hother : ∀ x, x ≠ k → x ≠ v →
      List.lookup x
        ((s.keyFreq.eraseP (fun e => decide (e.1 = v))) ++ [(k, 1)]) =
      List.lookup x s.keyFreq := by
    intro x hxk hxv
    cases hl : List.lookup x s.keyFreq with
    | none =>
      rw [lookup_append_right _ _ _
        (by rw [lookup_eraseP_ne _ _ _ hxv]; exact hl),
        lookup_cons_ne _ _ _ _ hxk]
      rfl
    | some w =>
      exact lookup_append_left _ _ _ _
        (by rw [lookup_eraseP_ne _ _ _ hxv]; exact hl)
  unfold LFUInv
  dsimp only
  refine ⟨?_, ?_, ?_, ?_, ?_⟩
  · intro x g hx
    by_cases hxk : x = k
    · subst hxk
      rw [hklook] at hx
      obtain rfl : 1 = g := Option.some.inj hx
      refine ⟨le_refl 1, le_refl 1, ?_⟩
      rw [fnUpd_self]
      exact self_mem_odInsert _ _
    · by_cases hxv : x = v
      · subst hxv
        rw [hvlook2] at hx
        cases hx
      · rw [hother x hxk hxv] at hx
        obtain ⟨hg1, hg2, hg3⟩ := inv1 x g hx
        refine ⟨hg1, hg1, ?_⟩
        by_cases hg4 : g = 1
        · subst hg4
          rw [fnUpd_self]
          refine (mem_odInsert x k _).mpr (Or.inl ?_)
          by_cases hm1 : s.minFreq = 1
          · rw [← hm1, fnUpd_self]
            rw [← hm1, hbk] at hg3
            rcases List.mem_cons.mp hg3 with rfl | hg5
            · exact absurd rfl hxv
            · exact hg5
          · rw [fnUpd_ne _ _ _ _ (fun he => hm1 he.symm)]
            exact hg3
        · rw [fnUpd_ne _ _ _ _ hg4]
          by_cases hgm : g = s.minFreq
          · subst hgm
            rw [fnUpd_self]
            rw [hbk] at hg3
            rcases List.mem_cons.mp hg3 with rfl | hg5
            · exact absurd rfl hxv
            · exact hg5
          · rw [fnUpd_ne _ _ _ _ hgm]
            exact hg3
  · intro g x hx
    by_cases hg4 : g = 1
    · subst hg4
      rw [fnUpd_self] at hx
      rcases (mem_odInsert x k _).mp hx with hx2 | rfl
      · by_cases hm1 : s.minFreq = 1
        · rw [← hm1, fnUpd_self] at hx2
          have hx3 : x ∈ s.freqKeys s.minFreq := by
            rw [hbk]
            exact List.mem_cons_of_mem v hx2
          have hlx := inv2 _ _ hx3
          have hxv : x ≠ v := fun he => hvrest (he ▸ hx2)
          have hxk : x ≠ k := by
            intro he
            rw [he, hlook] at hlx
            cases hlx
          rw [hother x hxk hxv, hlx, hm1]
        · rw [fnUpd_ne _ _ _ _ (fun he => hm1 he.symm)] at hx2
          have hlx := inv2 1 x hx2
          have hxv : x ≠ v := by
            intro he
            rw [he, hvlook] at hlx
            exact hm1 (Option.some.inj hlx)
          have hxk : x ≠ k := by
            intro he
            rw [he, hlook] at hlx
            cases hlx
          rw [hother x hxk hxv]
          exact hlx
      · exact hklook
    · rw [fnUpd_ne _ _ _ _ hg4] at hx
      by_cases hgm : g = s.minFreq
      · rw [hgm, fnUpd_self] at hx
        have hx3 : x ∈ s.freqKeys s.minFreq := by
          rw [hbk]
          exact List.mem_cons_of_mem v hx
        have hlx := inv2 _ _ hx3
        have hxv : x ≠ v := fun he => hvrest (he ▸ hx)
        have hxk : x ≠ k := by
          intro he
          rw [he, hlook] at hlx
          cases hlx
        rw [hother x hxk hxv, hlx, hgm]
      · rw [fnUpd_ne _ _ _ _ hgm] at hx
        have hlx := inv2 g x hx
        have hxv : x ≠ v := by
          intro he
          rw [he, hvlook] at hlx
          exact hgm (Option.some.inj hlx).symm
        have hxk : x ≠ k := by
          intro he
          rw [he, hlook] at hlx
          cases hlx
        rw [hother x hxk hxv]
        exact hlx
  · intro g
    by_cases hg4 : g = 1
    · subst hg4
      rw [fnUpd_self]
      refine nodup_odInsert _ _ ?_
      by_cases hm1 : s.minFreq = 1
      · rw [← hm1, fnUpd_self]
        exact hrestnd
      · rw [fnUpd_ne _ _ _ _ (fun he => hm1 he.symm)]
        exact inv3 1
    · rw [fnUpd_ne _ _ _ _ hg4]
      by_cases hgm : g = s.minFreq
      · subst hgm
        rw [fnUpd_self]
        exact hrestnd
      · rw [fnUpd_ne _ _ _ _ hgm]
        exact inv3 g
  · rw [List.map_append, List.nodup_append]
    refine ⟨(eraseP_map_fst_sublist _ _).nodup inv4, List.nodup_singleton k,
      fun a ha hmem => ?_⟩
    have hak : a = k := by simpa using hmem
    exact hkabs (hak ▸ (eraseP_map_fst_sublist _ _).subset ha)
  · intro _
    rw [fnUpd_self]
    exact odInsert_ne_nil _ _

/-- An LFU access never changes the capacity. -/
theorem lfuAccess_size (s : LFUState) (k : Nat) (s' : LFUState) (b : Bool)
    (h : lfuAccess s k = some (s', b)) : s'.size = s.size := by
  unfold lfuAccess at h
  split at h
  · cases h
    rfl
  · dsimp only at h
    split at h
    · split at h
      · exact absurd h (by simp)
      · cases h
        rfl
    · cases h
      rfl

/-- Any LFU access preserves the internal-consistency invariant. -/
theorem lfuAccess_inv (s : LFUState) (k : Nat) (s' : LFUState) (b : Bool)
    (h : lfuAccess s k = some (s', b)) (hI : LFUInv s) : LFUInv s' := by
  unfold lfuAccess at h
  split at h
  · next f hlook =>
    cases h
    exact lfuBump_inv { s with hits := s.hits + 1 } k f hlook hI
  · next hlook =>
    dsimp only at h
    split at h
    · split at h
      · exact absurd h (by simp)
      · next v rest hbk =>
        cases h
        exact lfu_evict_insert_inv { s with misses := s.misses + 1 }
          k v rest hlook hbk hI
    · cases h
      exact lfu_insert_inv { s with misses := s.misses + 1 } k hlook hI

/-- A fresh LFU cache satisfies the invariant. -/
theorem mkLFU_inv (c : Int) (s0 : LFUState) (h : mkLFU c = some s0) :
    LFUInv s0 ∧ 1 ≤ s0.size := by
  unfold mkLFU at h
  split at h
  · exact absurd h (by simp)
  · next hc =>
    cases h
    refine ⟨⟨?_, ?_, ?_, ?_, ?_⟩, ?_⟩
    · intro x g hx
      simp [List.lookup] at hx
    · intro g x hx
      simp at hx
    · intro g
      exact List.nodup_nil
    · simp
    · intro hne
      exact absurd rfl hne
    · show 1 ≤ c.toNat
      omega

/-- Replaying a trace preserves the LFU invariant and the capacity. -/
theorem lfuRun_inv (trace : List Nat) (s s' : LFUState)
    (h0 : LFUInv s ∧ 1 ≤ s.size)
    (h : runAcc lfuAccess s trace = some s') :
    LFUInv s' ∧ 1 ≤ s'.size := by
  induction trace generalizing s with
  | nil =>
    cases h
    exact h0
  | cons k rest ih =>
    unfold runAcc at h
    split at h
    · exact absurd h (by simp)
    · next s1 b heq =>
      refine ih s1 ⟨lfuAccess_inv s k s1 b heq h0.1, ?_⟩ h
      rw [lfuAccess_size s k s1 b heq]
      exact h0.2

/-- C8: on any reachable LFUCache state, a miss at capacity evicts the
front of bucket[min_freq]: a key whose frequency is minimal among all
resident keys, and the least recently promoted one in that bucket (every
other resident key of minimal frequency sits behind it in the bucket);
the new key is inserted with frequency 1 and min_freq is reset to 1. -/
theorem lfu_evicts_front_of_min_freq_bucket (c : Int) (trace : List Nat)
    (s0 s : LFUState) (k : Nat) (hmk : mkLFU c = some s0)
    (hrun : runAcc lfuAccess s0 trace = some s)
    (hmiss : List.lookup k s.keyFreq = none)
    (hfull : s.keyFreq.length ≥ s.size) :
    ∃ v rest s',
      s.freqKeys s.minFreq = v :: rest ∧
      lfuAccess s k = some (s', false) ∧
      List.lookup v s.keyFreq = some s.minFreq ∧
      (∀ x g, List.lookup x s.keyFreq = some g → s.minFreq ≤ g) ∧
      (∀ x, x ≠ v → List.lookup x s.keyFreq = some s.minFreq → x ∈ rest) ∧
      List.lookup v s'.keyFreq = none ∧
      List.lookup k s'.keyFreq = some 1 ∧
      s'.minFreq = 1 := by
  obtain ⟨⟨inv1, inv2, inv3, inv4, inv5⟩, hsz⟩ :=
    lfuRun_inv trace s0 s (mkLFU_inv c s0 hmk) hrun
  have hne : s.keyFreq ≠ [] := by
    intro he
    rw [he] at hfull
    simp at hfull
    omega
  rcases hbk : s.freqKeys s.minFreq with _ | ⟨v, rest⟩
  · exact absurd hbk (inv5 hne)
  · have hvlook : List.lookup v s.keyFreq = some s.minFreq := by
      refine inv2 _ _ ?_
      rw [hbk]
      exact List.mem_cons_self v rest
    have hvk : v ≠ k := by
      intro he
      rw [he, hmiss] at hvlook
      cases hvlook
    have hkabs : k ∉ s.keyFreq.map Prod.fst :=
      (lookup_eq_none_iff _ _).mp hmiss
    have hkeP : List.lookup k
        (s.keyFreq.eraseP (fun e => decide (e.1 = v))) = none := by
      rw [lookup_eq_none_iff]
      exact fun hmem => hkabs ((eraseP_map_fst_sublist _ _).subset hmem)
    refine ⟨v, rest,
      { s with
        keyFreq := (s.keyFreq.eraseP (fun e => decide (e.1 = v))) ++ [(k, 1)],
        freqKeys := fnUpd (fnUpd s.freqKeys s.minFreq rest) 1
          (odInsert ((fnUpd s.freqKeys s.minFreq rest) 1) k),
        minFreq := 1, misses := s.misses + 1 },
      rfl, ?_, hvlook, ?_, ?_, ?_, ?_, rfl⟩
    · unfold lfuAccess
      rw [hmiss]
      dsimp only
      rw [if_pos hfull, hbk]
    · exact fun x g hx => (inv1 x g hx).2.1
    · intro x hxv hx
      have hg3 := (inv1 x _ hx).2.2
      rw [hbk] at hg3
      rcases List.mem_cons.mp hg3 with rfl | hg5
      · exact absurd rfl hxv
      · exact hg5
    · show List.lookup v
        ((s.keyFreq.eraseP (fun e => decide (e.1 = v))) ++ [(k, 1)]) = none
      rw [lookup_append_right _ _ _ (lookup_eraseP_self _ _ inv4),
        lookup_cons_ne _ _ _ _ hvk]
      rfl
    · show List.lookup k
        ((s.keyFreq.eraseP (fun e => decide (e.1 = v))) ++ [(k, 1)]) = some 1
      rw [lookup_append_right _ _ _ hkeP, lookup_cons_self]

/-- Witness for lfu_evicts_front_of_min_freq_bucket: capacity 2 and the
trace [1, 2, 1] leave keys 1 (freq 2) and 2 (freq 1); accessing 3 evicts
key 2, the front of bucket 1. -/
theorem lfu_evicts_front_of_min_freq_bucket_witness :
    ∃ s0 s : LFUState, mkLFU 2 = some s0 ∧
      runAcc lfuAccess s0 [1, 2, 1] = some s ∧
      List.lookup 3 s.keyFreq = none ∧ s.keyFreq.length ≥ s.size ∧
      (∃ v rest s',
        s.freqKeys s.minFreq = v :: rest ∧
        lfuAccess s 3 = some (s', false) ∧
        List.lookup v s.keyFreq = some s.minFreq ∧
        (∀ x g, List.lookup x s.keyFreq = some g → s.minFreq ≤ g) ∧
        (∀ x, x ≠ v → List.lookup x s.keyFreq = some s.minFreq →
          x ∈ rest) ∧
        List.lookup v s'.keyFreq = none ∧
        List.lookup 3 s'.keyFreq = some 1 ∧
        s'.minFreq = 1) := by
  refine ⟨_, _, rfl, rfl, rfl, by decide, ?_⟩
  exact lfu_evicts_front_of_min_freq_bucket 2 [1, 2, 1] _ _ 3 rfl rfl rfl
    (by decide)

/-!
## Supporting fact for the OPT victim scan (claim C6 context)

The scan returns a key with no future occurrence whenever the cache
holds one; which of several such keys is returned depends on the
iteration order of the Python set, which has no faithful shallow
embedding (see spec.md Open Questions).
-/

/-- If some scanned page has no future occurrence, the victim scan stops
at a page with no future occurrence (the first one in iteration order). -/
theorem optSelectAux_evicts_no_future (fp : Nat → List Nat)
    (l : List Nat) :
    ∀ (far : Int) (v : Option Nat),
      (∃ p, p ∈ l ∧ fp p = []) →
      ∃ q, optSelectAux fp l far v = some q ∧ fp q = [] := by
  induction l with
  | nil =>
    intro far v hex
    obtain ⟨p, hp, -⟩ := hex
    exact absurd hp (List.not_mem_nil p)
  | cons p rest ih =>
    intro far v hex
    unfold optSelectAux
    cases hfp : fp p with
    | nil => exact ⟨p, rfl, hfp⟩
    | cons q tail =>
      have hex2 : ∃ x, x ∈ rest ∧ fp x = [] := by
        obtain ⟨x, hx, hfx⟩ := hex
        rcases List.mem_cons.mp hx with rfl | hx2
        · rw [hfp] at hfx
          cases hfx
        · exact ⟨x, hx2, hfx⟩
      dsimp only
      split
      · exact ih _ _ hex2
      · exact ih _ _ hex2

end Capsa